import Mathlib

/-!
Verification development for the Tokyo Dome event parser (`src/main.py`).

The Python source is shallowly embedded: pure functions become Lean functions
over `List Char` / `String`, Python dicts become insertion-ordered association
lists, and the external HTML parser (lxml / BeautifulSoup) is modelled by an
explicit node tree, since `parse_events` only consumes the parsed tree.
Floating-point similarity ratios (difflib) are modelled over `ℚ`: the ratio
`2*M/T` and the threshold `0.80` are exact in `ℚ`, and for the tiny
numerators/denominators arising here the float comparison in Python agrees
with the rational one.

Unicode data (NFKC, `str.lower`, `str.casefold`) is modelled by finite
per-character tables containing the entries relevant to the claims, with
identity as the default; each table entry reproduces the real Unicode data.
-/

namespace TokyoDome

/-! ## Python whitespace, strip and collapse

`str.strip()` and the regex class `\s` (Unicode mode) both match the set of
Unicode whitespace characters below, as used by `main.py`.
-/

/-- Characters treated as whitespace by Python's `str.strip()` and by `\s`
in `re` (Unicode mode). -/
def wsChars : List Char :=
  [' ', '\t', '\n', '\r', '\x0b', '\x0c',
   '\u001c', '\u001d', '\u001e', '\u001f', '\u0085', '\u00a0', '\u1680',
   '\u2000', '\u2001', '\u2002', '\u2003', '\u2004', '\u2005', '\u2006',
   '\u2007', '\u2008', '\u2009', '\u200a', '\u2028', '\u2029', '\u202f',
   '\u205f', '\u3000']

/-- Whether `c` is Python whitespace. -/
def isPyWs (c : Char) : Bool := wsChars.contains c

/-- Drop leading whitespace, as the left half of Python's `str.strip()`. -/
def lstripWs (l : List Char) : List Char := l.dropWhile isPyWs

/-- Drop trailing whitespace, as the right half of Python's `str.strip()`. -/
def rstripWs : List Char → List Char
  | [] => []
  | c :: cs =>
    match rstripWs cs with
    | [] => if isPyWs c then [] else [c]
    | r => c :: r

/-- Python `str.strip()` on a character list. -/
def pyStrip (l : List Char) : List Char := rstripWs (lstripWs l)

/-- Python `str.strip()` on a string. -/
def pyStripStr (s : String) : String := String.mk (pyStrip s.data)

/-- One pass of `re.sub(r"\s+", " ", s)`: every maximal whitespace run becomes
a single ASCII space.  The flag records whether the previous character was
whitespace. -/
def collapseAux : Bool → List Char → List Char
  | _, [] => []
  | prevWs, c :: cs =>
    if isPyWs c then
      if prevWs then collapseAux true cs
      else ' ' :: collapseAux true cs
    else c :: collapseAux false cs

/-- Python `re.sub(r"\s+", " ", s)` on a character list. -/
def collapseRuns (l : List Char) : List Char := collapseAux false l

/-- Python `re.sub(r"\s+", " ", s).strip()` from `normalize_event_name`. -/
def collapseWs (s : String) : String := String.mk (pyStrip (collapseRuns s.data))

/-! ## Unicode tables (finite model)

Each entry reproduces real Unicode data: NFKC mappings of a representative
set of compatibility characters, and the `str.lower` / `str.casefold`
mappings used by the claims.  Characters absent from a table map to
themselves.
-/

/-- NFKC mappings for the characters of interest.  `unicodedata.normalize`
is modelled character-wise (canonical recomposition across characters is not
represented; it does not affect the claims). -/
def nfkcTable : List (Char × List Char) :=
  [('＜', ['<']), ('＞', ['>']), ('！', ['!']), ('？', ['?']),
   ('（', ['(']), ('）', [')']), ('　', [' ']),
   ('｢', ['「']), ('｣', ['」']),
   ('Ａ', ['A']), ('ａ', ['a']), ('Ｂ', ['B']), ('ｂ', ['b']),
   ('０', ['0']), ('１', ['1']),
   ('ﬁ', ['f', 'i'])]

/-- NFKC on one character: table entry, else identity. -/
def nfkcChar (c : Char) : List Char :=
  match nfkcTable.find? (fun p => p.1 == c) with
  | some p => p.2
  | none => [c]

/-- Python `unicodedata.normalize("NFKC", s)` in the finite model. -/
def nfkcStr (s : String) : String := String.mk (s.data.flatMap nfkcChar)

/-- Python `str.lower` mappings of the characters of interest (real Unicode data:
`"ß".lower() == "ß"`, `"ẞ".lower() == "ß"`). -/
def lowerTable : List (Char × List Char) :=
  [('A', ['a']), ('B', ['b']), ('C', ['c']), ('D', ['d']), ('E', ['e']),
   ('F', ['f']), ('G', ['g']), ('H', ['h']), ('I', ['i']), ('J', ['j']),
   ('K', ['k']), ('L', ['l']), ('M', ['m']), ('N', ['n']), ('O', ['o']),
   ('P', ['p']), ('Q', ['q']), ('R', ['r']), ('S', ['s']), ('T', ['t']),
   ('U', ['u']), ('V', ['v']), ('W', ['w']), ('X', ['x']), ('Y', ['y']),
   ('Z', ['z']), ('É', ['é']), ('ẞ', ['ß'])]

/-- Python `str.lower` on one character: table entry, else identity. -/
def lowerChar (c : Char) : List Char :=
  match lowerTable.find? (fun p => p.1 == c) with
  | some p => p.2
  | none => [c]

/-- Python `s.lower()` in the finite model. -/
def lowerStr (s : String) : String := String.mk (s.data.flatMap lowerChar)

/-- Python `str.casefold` mappings (real Unicode data: `"ß".casefold() == "ss"`,
`"ẞ".casefold() == "ss"`). -/
def caseFoldTable : List (Char × List Char) :=
  lowerTable.filter (fun p => p.1 != 'ẞ') ++ [('ß', ['s', 's']), ('ẞ', ['s', 's'])]

/-- Python `str.casefold` on one character: table entry, else identity. -/
def caseFoldChar (c : Char) : List Char :=
  match caseFoldTable.find? (fun p => p.1 == c) with
  | some p => p.2
  | none => [c]

/-- Python `s.casefold()` in the finite model. -/
def caseFoldStr (s : String) : String := String.mk (s.data.flatMap caseFoldChar)

/-- Python `name.replace("「", '"').replace("」", '"')` from `normalize_event_name`. -/
def replaceBrackets (s : String) : String :=
  String.mk (s.data.map (fun c => if c = '「' ∨ c = '」' then '"' else c))

/-! ## `normalize_event_name` (main.py lines 27-56) -/

/-- Python `normalize_event_name`: NFKC, corner brackets to `"`, whitespace collapse
with trim, then `str.lower`. -/
def normalize_event_name (name : String) : String :=
  let normalized := nfkcStr name
  let normalized := replaceBrackets normalized
  let normalized := collapseWs normalized
  lowerStr normalized

/-- Modelled from the spec: NameNormalizer steps 1-3 followed by full Unicode
case folding (`str.casefold`) as the last step, exactly as the spec's step 4
words it. -/
def specNormalizeFold (name : String) : String :=
  caseFoldStr (collapseWs (replaceBrackets (nfkcStr name)))

/-- Modelled from the spec: NameNormalizer steps 1-3 followed by Unicode
lowercasing (`str.lower`) as the last step. -/
def specNormalizeLower (name : String) : String :=
  lowerStr (collapseWs (replaceBrackets (nfkcStr name)))

/-! ## Event data model (main.py lines 59-64) -/

/-- The `Event` TypedDict. -/
structure Event where
  date : String
  name : String
  start_time : String
deriving DecidableEq, Repr

/-! ## difflib `SequenceMatcher` (as used by `name_similarity`, line 67-69)

`SequenceMatcher(None, left, right).ratio()` with the default `autojunk=True`
and no junk predicate.  The model mirrors difflib: `b2j` maps a character to
its positions in `b`, purging "popular" characters when `len(b) >= 200`;
`find_longest_match` runs the j2len dynamic program and then extends the best
match on both sides; the matching blocks are collected recursively and the
ratio is `2*M/T`.
-/

/-- Positions at which `c` occurs in the list, offset by `s`, in increasing
order. -/
def positionsFrom (c : Char) : List Char → Nat → List Nat
  | [], _ => []
  | d :: rest, s =>
    if d = c then s :: positionsFrom c rest (s + 1) else positionsFrom c rest (s + 1)

/-- Positions at which `c` occurs in `b` (difflib's `b2j` entry before the
autojunk purge). -/
def positionsOf (b : List Char) (c : Char) : List Nat := positionsFrom c b 0

/-- difflib autojunk: with `n = len(b) >= 200`, characters occurring more than
`n // 100 + 1` times are purged from `b2j`. -/
def autojunkPopular (b : List Char) (c : Char) : Bool :=
  decide (200 ≤ b.length) && decide (b.length / 100 + 1 < (positionsOf b c).length)

/-- difflib's `b2j.get(c, [])` after the autojunk purge. -/
def b2j (b : List Char) (c : Char) : List Nat :=
  if autojunkPopular b c then [] else positionsOf b c

/-- Lookup in a `j2len` association list, with difflib's `.get(j, 0)`
default. -/
def alookup (l : List (Nat × Nat)) (j : Nat) : Nat :=
  match l.find? (fun p => p.1 == j) with
  | some p => p.2
  | none => 0

/-- State of `find_longest_match`: the `j2len` map being built for the current
row and the best match so far. -/
structure FlmState where
  j2len : List (Nat × Nat)
  besti : Nat
  bestj : Nat
  bestsize : Nat
deriving Repr

/-- Inner loop of `find_longest_match`: one row `i`, iterating over the
positions of `a[i]` in `b`.  `old` is the previous row's `j2len`; the state's
`j2len` is the new row being built.  Python's `j2len.get(j-1, 0)` at `j = 0`
looks up the absent key `-1`, hence the `j = 0` case. -/
def innerLoop (i blo bhi : Nat) (old : List (Nat × Nat)) :
    List Nat → FlmState → FlmState
  | [], st => st
  | j :: js, st =>
    if j < blo then innerLoop i blo bhi old js st
    else if bhi ≤ j then st
    else
      let k := (if j = 0 then 0 else alookup old (j - 1)) + 1
      let st' : FlmState :=
        if st.bestsize < k then ⟨(j, k) :: st.j2len, i + 1 - k, j + 1 - k, k⟩
        else ⟨(j, k) :: st.j2len, st.besti, st.bestj, st.bestsize⟩
      innerLoop i blo bhi old js st'

/-- Outer loop of `find_longest_match` over `i in range(alo, ahi)`. -/
def outerLoop (a b : List Char) (blo bhi : Nat) : List Nat → FlmState → FlmState
  | [], st => st
  | i :: is, st =>
    let st' := innerLoop i blo bhi st.j2len (b2j b (a.getD i ' '))
      ⟨[], st.besti, st.bestj, st.bestsize⟩
    outerLoop a b blo bhi is st'

/-- In-bounds character equality, used by the extension loops (Python indexes
are always in bounds there; out-of-bounds compares as false). -/
def charEq? (a b : List Char) (i j : Nat) : Bool :=
  match a.get? i, b.get? j with
  | some x, some y => x == y
  | _, _ => false

/-- The left extension loop of `find_longest_match` (the junk set is empty
since `isjunk=None`).  The loop decreases `besti` by one each iteration, so a
fuel of the initial `besti` can never be exhausted. -/
def extendLeft (a b : List Char) (alo blo : Nat) :
    Nat → Nat → Nat → Nat → Nat × Nat × Nat
  | 0, bi, bj, bs => (bi, bj, bs)
  | fuel + 1, bi, bj, bs =>
    if alo < bi && blo < bj && charEq? a b (bi - 1) (bj - 1) then
      extendLeft a b alo blo fuel (bi - 1) (bj - 1) (bs + 1)
    else (bi, bj, bs)

/-- The right extension loop of `find_longest_match`.  Each iteration grows
`bestsize`, bounded by `ahi - besti ≤ ahi`, so a fuel of `ahi` can never be
exhausted. -/
def extendRight (a b : List Char) (ahi bhi : Nat) :
    Nat → Nat → Nat → Nat → Nat × Nat × Nat
  | 0, bi, bj, bs => (bi, bj, bs)
  | fuel + 1, bi, bj, bs =>
    if bi + bs < ahi && bj + bs < bhi && charEq? a b (bi + bs) (bj + bs) then
      extendRight a b ahi bhi fuel bi bj (bs + 1)
    else (bi, bj, bs)

/-- difflib `find_longest_match` on the window `a[alo:ahi]`, `b[blo:bhi]`,
with an empty junk set (there is no junk predicate; autojunk only removes
entries from `b2j` and does not mark junk). -/
def find_longest_match (a b : List Char) (alo ahi blo bhi : Nat) : Nat × Nat × Nat :=
  let st := outerLoop a b blo bhi (List.range' alo (ahi - alo)) ⟨[], alo, blo, 0⟩
  let l := extendLeft a b alo blo st.besti st.besti st.bestj st.bestsize
  extendRight a b ahi bhi ahi l.1 l.2.1 l.2.2

/-- Total size of all matching blocks (`get_matching_blocks`), computed by the
same divide-and-conquer as difflib's queue; only the sum of block sizes is
needed for `ratio`, so the ordering and merging of blocks is irrelevant.  Each
recursive subproblem shrinks the window, so the recursion depth is below
`len(a) + len(b) + 1`, which is the fuel used. -/
def matchTotal (a b : List Char) : Nat → Nat → Nat → Nat → Nat → Nat
  | 0, _, _, _, _ => 0
  | fuel + 1, alo, ahi, blo, bhi =>
    let m := find_longest_match a b alo ahi blo bhi
    let i := m.1
    let j := m.2.1
    let k := m.2.2
    if k = 0 then 0
    else
      k + (if alo < i && blo < j then matchTotal a b fuel alo i blo j else 0)
        + (if i + k < ahi && j + k < bhi then matchTotal a b fuel (i + k) ahi (j + k) bhi else 0)

/-- Total matched size `M` over the full sequences, as summed by `ratio()`. -/
def smMatches (a b : List Char) : Nat :=
  matchTotal a b (a.length + b.length + 1) 0 a.length 0 b.length

/-- difflib `SequenceMatcher.ratio()`: `2*M/T`, and `1.0` when both sequences
are empty (`T = 0`). -/
def smRatio (a b : List Char) : ℚ :=
  let t := a.length + b.length
  if t = 0 then 1
  else (2 * smMatches a b : ℚ) / (t : ℚ)

/-- Python `name_similarity` (main.py lines 67-69). -/
def name_similarity (left right : String) : ℚ := smRatio left.data right.data

/-- Python `EVENT_NAME_SIMILARITY_THRESHOLD` (main.py line 24). -/
def EVENT_NAME_SIMILARITY_THRESHOLD : ℚ := 0.80

/-- Python `is_same_event_name` (main.py lines 72-74) compares
`name_similarity(left, right) >= 0.80`.  With `T = len(left) + len(right)`
and match total `M` that comparison is exactly `4*T ≤ 10*M`: cross-multiply
`2*M/T ≥ 4/5` for `T > 0`, and for `T = 0` both sides are true.  The integer
form is used so the test evaluates inside the kernel;
`is_same_event_name_iff` below proves it equal to the rational comparison. -/
def is_same_event_name (left right : String) : Bool :=
  4 * (left.data.length + right.data.length) ≤ 10 * smMatches left.data right.data

/-- Python `prefer_event_name` (main.py lines 77-83): keep the event with the longer
normalized name, ties keep `current`. -/
def prefer_event_name (current candidate : Event) : Event :=
  if (normalize_event_name current.name).length < (normalize_event_name candidate.name).length
  then candidate
  else current

/-! ## Time extraction (main.py lines 104-138)

Python regex patterns are embedded as explicit matchers.  Each pattern is a
literal prefix, optional pieces with the regex engine's ordered backtracking,
whitespace classes, and the capture group `(\d{1,2}:\d{2})`.  `\s*`/`\s+`
followed by a digit or a letter is maximal-munch equivalent to backtracking
since whitespace never overlaps with the follow set.  `\d` is modelled as the
ASCII digits appearing in the schedule text.
-/

/-- Numeric value of an ASCII digit character. -/
def digitVal (c : Char) : Nat := c.toNat - 48

/-- Python `int()` on a nonempty ASCII digit string. -/
def digitsToNat (l : List Char) : Nat := l.foldl (fun a c => a * 10 + digitVal c) 0

/-- Character for a decimal digit value. -/
def digitChar (n : Nat) : Char := Char.ofNat (48 + n)

/-- ASCII digit test: the `\d` of the model (the schedule text uses ASCII
digits). -/
def isDig (c : Char) : Bool := 48 ≤ c.toNat && c.toNat ≤ 57

/-- Decimal digit characters with explicit fuel; the fuel only needs to cover
the digit count, so `n + 1` always suffices. -/
def natDigitsAux : Nat → Nat → List Char
  | 0, _ => []
  | fuel + 1, n =>
    if n < 10 then [digitChar n]
    else natDigitsAux fuel (n / 10) ++ [digitChar (n % 10)]

/-- Decimal digit characters of `n`, most significant first, as produced by
Python `str(n)` for a nonnegative integer. -/
def natDigits (n : Nat) : List Char := natDigitsAux (n + 1) n

/-- Python `str(n)` for a natural number. -/
def natRepr (n : Nat) : String := String.mk (natDigits n)

/-- Python f-string formatting `f"{n:02d}"` for a natural number. -/
def pad2 (n : Nat) : String := if n < 10 then "0" ++ natRepr n else natRepr n

/-- Capture `(\d{1,2}:\d{2})` at the head of the text with a two-digit hour. -/
def time2At : List Char → Option (List Char)
  | c1 :: c2 :: ':' :: d1 :: d2 :: _ =>
    if isDig c1 && isDig c2 && isDig d1 && isDig d2 then
      some [c1, c2, ':', d1, d2]
    else none
  | _ => none

/-- Capture `(\d{1,2}:\d{2})` at the head of the text with a one-digit hour. -/
def time1At : List Char → Option (List Char)
  | c1 :: ':' :: d1 :: d2 :: _ =>
    if isDig c1 && isDig d1 && isDig d2 then some [c1, ':', d1, d2] else none
  | _ => none

/-- Capture `(\d{1,2}:\d{2})` at the head of the text; the greedy `\d{1,2}`
tries two digits before one. -/
def timeAt (l : List Char) : Option (List Char) :=
  match time2At l with
  | some r => some r
  | none => time1At l

/-- Match `\s+` at the head and return the rest. -/
def dropWs1 : List Char → Option (List Char)
  | c :: rest => if isPyWs c then some (rest.dropWhile isPyWs) else none
  | [] => none

/-- Pattern 1, `開演\s*(\d{1,2}:\d{2})`, anchored at the head. -/
def p1At : List Char → Option (List Char)
  | '開' :: '演' :: rest => timeAt (rest.dropWhile isPyWs)
  | _ => none

/-- Pattern 2, `開始\s*(\d{1,2}:\d{2})`, anchored at the head. -/
def p2At : List Char → Option (List Char)
  | '開' :: '始' :: rest => timeAt (rest.dropWhile isPyWs)
  | _ => none

/-- Tail of pattern 3 after `[Ss]tarts?`: `\s+time\s+(\d{1,2}:\d{2})`. -/
def timeTail3 (r : List Char) : Option (List Char) :=
  match dropWs1 r with
  | none => none
  | some r2 =>
    match r2 with
    | 't' :: 'i' :: 'm' :: 'e' :: r3 =>
      match dropWs1 r3 with
      | none => none
      | some r4 => timeAt r4
    | _ => none

/-- Pattern 3, `[Ss]tarts?\s+time\s+(\d{1,2}:\d{2})`, anchored at the head;
the optional greedy `s?` is tried with the `s` first. -/
def p3At : List Char → Option (List Char)
  | c :: 't' :: 'a' :: 'r' :: 't' :: rest =>
    if c = 'S' ∨ c = 's' then
      match rest with
      | 's' :: rest2 =>
        match timeTail3 rest2 with
        | some r => some r
        | none => timeTail3 rest
      | _ => timeTail3 rest
    else none
  | _ => none

/-- Tail of pattern 4 after `[Ss]tarts?`: `\s*(\d{1,2}:\d{2})`. -/
def timeTail4 (r : List Char) : Option (List Char) := timeAt (r.dropWhile isPyWs)

/-- Pattern 4, `[Ss]tarts?\s*(\d{1,2}:\d{2})`, anchored at the head. -/
def p4At : List Char → Option (List Char)
  | c :: 't' :: 'a' :: 'r' :: 't' :: rest =>
    if c = 'S' ∨ c = 's' then
      match rest with
      | 's' :: rest2 =>
        match timeTail4 rest2 with
        | some r => some r
        | none => timeTail4 rest
      | _ => timeTail4 rest
    else none
  | _ => none

/-- Pattern 5, `／開演\s*(\d{1,2}:\d{2})`, anchored at the head. -/
def p5At : List Char → Option (List Char)
  | '／' :: '開' :: '演' :: rest => timeAt (rest.dropWhile isPyWs)
  | _ => none

/-- Python `re.search`: try the anchored matcher at each start position from
the left and return the first capture. -/
def searchAux (pAt : List Char → Option (List Char)) : List Char → Option (List Char)
  | [] => none
  | c :: rest =>
    match pAt (c :: rest) with
    | some r => some r
    | none => searchAux pAt rest

/-- Search for pattern 1 anywhere in the text. -/
def search1 (text : String) : Option (List Char) := searchAux p1At text.data

/-- Search for pattern 2 anywhere in the text. -/
def search2 (text : String) : Option (List Char) := searchAux p2At text.data

/-- Search for pattern 3 anywhere in the text. -/
def search3 (text : String) : Option (List Char) := searchAux p3At text.data

/-- Search for pattern 4 anywhere in the text. -/
def search4 (text : String) : Option (List Char) := searchAux p4At text.data

/-- Search for pattern 5 anywhere in the text. -/
def search5 (text : String) : Option (List Char) := searchAux p5At text.data

/-- Hour zero-padding of a captured `H:MM` or `HH:MM` group: Python splits at
`:` and formats `f"{int(hour):02d}:{minutes}"`. -/
def padHour (cap : List Char) : String :=
  let hourDigits := cap.takeWhile (fun c => c ≠ ':')
  let minutes := (cap.dropWhile (fun c => c ≠ ':')).drop 1
  pad2 (digitsToNat hourDigits) ++ ":" ++ String.mk minutes

/-- Python `extract_start_time` (main.py lines 104-138): the five patterns in
order, first match anywhere wins, hour zero-padded; `none` if no pattern
matches. -/
def extract_start_time (text : String) : Option String :=
  match search1 text with
  | some cap => some (padHour cap)
  | none =>
  match search2 text with
  | some cap => some (padHour cap)
  | none =>
  match search3 text with
  | some cap => some (padHour cap)
  | none =>
  match search4 text with
  | some cap => some (padHour cap)
  | none =>
  match search5 text with
  | some cap => some (padHour cap)
  | none => none

/-! ## HTML node model (BeautifulSoup boundary)

`BeautifulSoup(html, "lxml")` is an external parser; `parse_events` and
`find_month_table` consume only the parsed tree, which is modelled by
`HNode`.  Serialization `str(tag)` renders tags, text, attributes and
comments; `get_text(strip=True)` concatenates the stripped text fragments of
all descendants, excluding comments (bs4 ≥ 4.9 skips comments, which is why
main.py line 198 serializes the header to see text inside comments). -/

/-- A node of the parsed HTML tree. -/
inductive HNode where
  | elem (tag : String) (classes : List String) (children : List HNode)
  | text (s : String)
  | comment (s : String)

/-- Rendered class attribute of a tag, as in `str(tag)`. -/
def classAttr (classes : List String) : String :=
  match classes with
  | [] => ""
  | _ => " class=" ++ "\"" ++ String.intercalate " " classes ++ "\""

mutual

/-- Python `str(tag)`: the raw serialized markup of a node. -/
def serialize : HNode → String
  | .text s => s
  | .comment s => "<!--" ++ s ++ "-->"
  | .elem tag classes children =>
    "<" ++ tag ++ classAttr classes ++ ">" ++ serializeList children ++ "</" ++ tag ++ ">"

/-- Serialized markup of a list of sibling nodes. -/
def serializeList : List HNode → String
  | [] => ""
  | n :: ns => serialize n ++ serializeList ns

end

mutual

/-- Python `tag.get_text(strip=True)`: stripped text fragments of all
descendants, concatenated; comments contribute nothing. -/
def getTextStrip : HNode → String
  | .text s => pyStripStr s
  | .comment _ => ""
  | .elem _ _ children => getTextStripList children

/-- Concatenated stripped text of a list of sibling nodes. -/
def getTextStripList : List HNode → String
  | [] => ""
  | n :: ns => getTextStrip n ++ getTextStripList ns

end

mutual

/-- All nodes of the subtree in document (pre-)order, the node itself first.
This is the order of BeautifulSoup's `next_elements` chain. -/
def preorder : HNode → List HNode
  | .elem tag classes children => .elem tag classes children :: preorderList children
  | .text s => [.text s]
  | .comment s => [.comment s]

/-- Concatenated preorders of a list of sibling subtrees. -/
def preorderList : List HNode → List HNode
  | [] => []
  | n :: ns => preorder n ++ preorderList ns

end

/-- Strict descendants of a node in document order (`find_all` search
space). -/
def descendants : HNode → List HNode
  | .elem _ _ children => preorderList children
  | _ => []

/-- Whether a node is a `table` tag. -/
def isTable : HNode → Bool
  | .elem tag _ _ => tag == "table"
  | _ => false

/-- Whether a node is a `p` tag carrying the `c-ttl-set-calender` class
(main.py line 194). -/
def isCalendarHeader : HNode → Bool
  | .elem tag classes _ => tag == "p" && classes.contains "c-ttl-set-calender"
  | _ => false

/-- Whether a node is a `tr` tag. -/
def isTr : HNode → Bool
  | .elem tag _ _ => tag == "tr"
  | _ => false

/-- Whether a node is a `td` or `th` tag. -/
def isTdTh : HNode → Bool
  | .elem tag _ _ => tag == "td" || tag == "th"
  | _ => false

/-- Whether a node is an `a` tag. -/
def isAnchor : HNode → Bool
  | .elem tag _ _ => tag == "a"
  | _ => false

/-! ## Month table location (main.py lines 167-208) -/

/-- Python `MONTH_NAMES` (main.py lines 167-170). -/
def MONTH_NAMES : List String :=
  ["January", "February", "March", "April", "May", "June",
   "July", "August", "September", "October", "November", "December"]

/-- Python `MONTH_NAMES[month - 1]` for `month` in `1..12`. -/
def monthName (month : Nat) : String := MONTH_NAMES.getD (month - 1) ""

/-- Python's `in` substring test. -/
def isSubstr (pat s : String) : Bool := decide (pat.data <:+: s.data)

/-- The Japanese header pattern `f"{year}年{month:02d}月"`. -/
def jpPattern (year month : Nat) : String := natRepr year ++ "年" ++ pad2 month ++ "月"

/-- The English header pattern `f"{MONTH_NAMES[month-1]} {year}"`. -/
def enPattern (year month : Nat) : String := monthName month ++ " " ++ natRepr year

/-- The header test of main.py line 202: the Japanese pattern against the raw
markup or the visible text, the English pattern against the visible text
only. -/
def headerMatches (header : HNode) (year month : Nat) : Bool :=
  isSubstr (jpPattern year month) (serialize header) ||
  isSubstr (jpPattern year month) (getTextStrip header) ||
  isSubstr (enPattern year month) (getTextStrip header)

/-- Scan of the headers in document order: at a matching header take the next
table in the `next_elements` chain (`find_next("table")`); with no following
table, continue with later headers (main.py lines 196-208). -/
def scanHeaders (year month : Nat) : List HNode → Option HNode
  | [] => none
  | n :: rest =>
    if isCalendarHeader n && headerMatches n year month then
      match rest.find? isTable with
      | some t => some t
      | none => scanHeaders year month rest
    else scanHeaders year month rest

/-- Python `find_month_table` (main.py lines 173-208) over the parsed tree. -/
def find_month_table (doc : HNode) (year month : Nat) : Option HNode :=
  scanHeaders year month (preorder doc)

/-- Index-based locator used for the spec-side formulations: the first header
(in document order) satisfying `matcher` that is followed by a table yields
that nearest table. -/
def locateBy (matcher : HNode → Nat → Nat → Bool) (doc : HNode) (year month : Nat) :
    Option HNode :=
  let nodes := preorder doc
  (List.range nodes.length).findSome? (fun i =>
    if isCalendarHeader (nodes.getD i (.text "")) &&
       matcher (nodes.getD i (.text "")) year month then
      (nodes.drop (i + 1)).find? isTable
    else none)

/-- Modelled from the spec (claim C2's matching rule): either pattern may
appear in the raw serialized markup or in the visible text. -/
def claimHeaderMatch (header : HNode) (year month : Nat) : Bool :=
  isSubstr (jpPattern year month) (serialize header) ||
  isSubstr (jpPattern year month) (getTextStrip header) ||
  isSubstr (enPattern year month) (serialize header) ||
  isSubstr (enPattern year month) (getTextStrip header)

/-- Spec-side matcher as amended: the Japanese pattern against raw markup or
visible text, the English pattern against visible text only. -/
def specHeaderMatch (header : HNode) (year month : Nat) : Bool :=
  isSubstr (jpPattern year month) (serialize header) ||
  isSubstr (jpPattern year month) (getTextStrip header) ||
  isSubstr (enPattern year month) (getTextStrip header)

/-! ## Row parsing (main.py lines 141-164 and 211-272) -/

/-- Python category labels stripped from a cell text fallback (main.py line
158), checked in order with first match winning. -/
def categoryLabels : List String := ["コンサート", "スポーツ", "その他", "野球"]

/-- Python `text.startswith(p)` as a character-list test. -/
def startsWithCh : List Char → List Char → Bool
  | [], _ => true
  | _ :: _, [] => false
  | c :: cs, d :: ds => c == d && startsWithCh cs ds

/-- The fallback label strip of `extract_event_name`: remove the first
matching leading category label and re-strip. -/
def stripCategoryLabel (text : String) : String :=
  match categoryLabels.find? (fun p => startsWithCh p.data text.data) with
  | some p => pyStripStr (String.mk (text.data.drop p.data.length))
  | none => text

/-- Python `extract_event_name` (main.py lines 141-164): link text if the
cell contains an `a` tag (possibly the empty string), else the stripped cell
text without category label, or `none` if that is empty. -/
def extract_event_name (cell : HNode) : Option String :=
  match (descendants cell).find? isAnchor with
  | some link => some (getTextStrip link)
  | none =>
    let text := getTextStrip cell
    let text := stripCategoryLabel text
    if text = "" then none else some text

/-- List form of the leading `(\d{1,2})` match, greedy. -/
def leadDigitsCh : List Char → Option Nat
  | c1 :: c2 :: _ =>
    if isDig c1 then
      some (if isDig c2 then digitsToNat [c1, c2] else digitsToNat [c1])
    else none
  | [c1] => if isDig c1 then some (digitsToNat [c1]) else none
  | [] => none

/-- Python `re.match(r"(\d{1,2})", date_cell)`: the leading one-or-two digit
day of month, greedy. -/
def leadingDayDigits (s : String) : Option Nat := leadDigitsCh s.data

/-- Python `f"{year}-{month:02d}-{day:02d}"`. -/
def fmtDate (year month day : Nat) : String :=
  natRepr year ++ "-" ++ pad2 month ++ "-" ++ pad2 day

/-- One iteration of the row loop of `parse_events` (main.py lines 233-270):
`none` exactly for the rows the loop skips with `continue`. -/
def rowEvent (year month : Nat) (row : HNode) : Option Event :=
  match (descendants row).filter isTdTh with
  | c0 :: c1 :: _ =>
    match leadingDayDigits (getTextStrip c0) with
    | none => none
    | some day =>
      let cellText := getTextStrip c1
      if cellText = "" then none
      else
        match extract_event_name c1 with
        | none => none
        | some name =>
          if name = "" then none
          else some ⟨fmtDate year month day, name, (extract_start_time cellText).getD "00:00"⟩
  | _ => none

/-- The row loop of `parse_events`, appending one event per qualifying row in
document order. -/
def rowsLoop (year month : Nat) (rows : List HNode) : List Event :=
  rows.foldl (fun acc row =>
    match rowEvent year month row with
    | some e => acc ++ [e]
    | none => acc) []

/-! ## Deduplication (main.py lines 290-325)

The Python dict over `(date, start_time)` keys is modelled as an
insertion-ordered association list: Python dicts preserve insertion order,
`setdefault` appends a new key at the end, and `.values()` is in insertion
order. -/

/-- Grouping key of an event. -/
def keyOf (e : Event) : String × String := (e.date, e.start_time)

/-- Scan a key's group list for the first fuzzy match (main.py lines
311-315); on a match replace the stored pair with the preferred event, else
append (lines 317-323). -/
def processCands : List (Event × String) → Event → String → List (Event × String)
  | [], e, nn => [(e, nn)]
  | (ex, exn) :: rest, e, nn =>
    if is_same_event_name exn nn then
      let preferred := prefer_event_name ex e
      (preferred, normalize_event_name preferred.name) :: rest
    else (ex, exn) :: processCands rest e nn

/-- Update the group of `key` in the insertion-ordered map, appending a new
key at the end as `setdefault` does. -/
def updateGroups :
    List ((String × String) × List (Event × String)) → (String × String) → Event → String →
    List ((String × String) × List (Event × String))
  | [], key, e, nn => [(key, processCands [] e nn)]
  | (k, g) :: rest, key, e, nn =>
    if k = key then (k, processCands g e nn) :: rest
    else (k, g) :: updateGroups rest key e nn

/-- One iteration of the event loop of `deduplicate_events`. -/
def dedupStep (groups : List ((String × String) × List (Event × String))) (e : Event) :
    List ((String × String) × List (Event × String)) :=
  updateGroups groups (keyOf e) e (normalize_event_name e.name)

/-- Python `deduplicate_events` (main.py lines 290-325). -/
def deduplicate_events (events : List Event) : List Event :=
  (events.foldl dedupStep []).flatMap (fun g => g.2.map Prod.fst)

/-! ## `parse_events` (main.py lines 211-272) -/

/-- The raw candidate list of `parse_events`: the `events` variable right
before the `return deduplicate_events(events)` on line 272. -/
def parse_events_raw (doc : HNode) (year month : Nat) : List Event :=
  match find_month_table doc year month with
  | none => []
  | some table => rowsLoop year month ((descendants table).filter isTr)

/-- Python `parse_events` (main.py lines 211-272) over the parsed tree: the
empty list when no month table is found, else the fuzzy-deduplicated row
candidates. -/
def parse_events (doc : HNode) (year month : Nat) : List Event :=
  match find_month_table doc year month with
  | none => []
  | some table => deduplicate_events (rowsLoop year month ((descendants table).filter isTr))

/-! ## SQL emission (main.py lines 348-383) -/

/-- Python `escape_sql_string` (main.py lines 348-357): double every single
quote. -/
def escape_sql_string (value : String) : String :=
  String.mk (value.data.flatMap (fun c => if c = '\'' then ['\'', '\''] else [c]))

/-- The statement built for one event in the loop of `generate_upsert_sql`
(main.py line 380). -/
def upsertStmt (e : Event) : String :=
  "INSERT OR REPLACE INTO events (date, name, start_time) VALUES ('" ++
    escape_sql_string e.date ++ "', '" ++ escape_sql_string e.name ++ "', '" ++
    escape_sql_string e.start_time ++ "');"

/-- Python `generate_upsert_sql` (main.py lines 360-383). -/
def generate_upsert_sql (events : List Event) : String :=
  if events.isEmpty then ""
  else String.intercalate "\n" (events.foldl (fun acc e => acc ++ [upsertStmt e]) [])

/-- Spec-side rendering of one upsert statement: an `INSERT OR REPLACE` row
keyed on `(date, name)` with all three values single-quote escaped and a
terminating semicolon. -/
def specUpsertLine (e : Event) : String :=
  "INSERT OR REPLACE INTO events (date, name, start_time) VALUES (" ++
    "'" ++ escape_sql_string e.date ++ "', " ++
    "'" ++ escape_sql_string e.name ++ "', " ++
    "'" ++ escape_sql_string e.start_time ++ "'" ++ ");"


/-! ## Definitions used by the verification theorems -/

/-- The grouping state in which every stored group is the singleton of one
already-seen event. -/
def singletonGroups (l : List Event) :
    List ((String × String) × List (Event × String)) :=
  l.map (fun d => (keyOf d, [(d, normalize_event_name d.name)]))

/-- Spec-side RowParser: one candidate per qualifying row of the located
month table, in document order. -/
def specRowCandidates (doc : HNode) (year month : Nat) : List Event :=
  match find_month_table doc year month with
  | none => []
  | some table => ((descendants table).filter isTr).filterMap (rowEvent year month)

/-- Whether a string matches the anchored regex `^\d{4}-\d{2}-\d{2}$`. -/
def matchDateFormat (s : String) : Bool :=
  match s.data with
  | [a, b, c, d, '-', e, f, '-', g, h] =>
    isDig a && isDig b && isDig c && isDig d && isDig e && isDig f && isDig g && isDig h
  | _ => false

/-- Whether a string matches the anchored regex `^\d{2}:\d{2}$`. -/
def matchTimeFormat (s : String) : Bool :=
  match s.data with
  | [a, b, ':', c, d] => isDig a && isDig b && isDig c && isDig d
  | _ => false

/-- All events stored in the grouping state, in `.values()` order. -/
def storedEvents (groups : List ((String × String) × List (Event × String))) :
    List Event :=
  groups.flatMap (fun g => g.2.map Prod.fst)

/-- Length of the run of kept (non-popular) positions of `x` ending at `j`,
matching the diagonal values of the `j2len` dynamic program on identical
sequences. -/
def diagRun (x : List Char) : Nat → Nat
  | 0 => if autojunkPopular x (x.getD 0 ' ') then 0 else 1
  | j + 1 => if autojunkPopular x (x.getD (j + 1) ' ') then 0 else diagRun x j + 1

/-- Shape of a captured `(\d{1,2}:\d{2})` group. -/
def TimeCap (cap : List Char) : Prop :=
  (∃ c1 c2 d1 d2, cap = [c1, c2, ':', d1, d2] ∧
    isDig c1 = true ∧ isDig c2 = true ∧ isDig d1 = true ∧ isDig d2 = true) ∨
  (∃ c1 d1 d2, cap = [c1, ':', d1, d2] ∧
    isDig c1 = true ∧ isDig d1 = true ∧ isDig d2 = true)

/-- Invariant of the outer loop of `find_longest_match` on identical
sequences, after `r` processed rows: the best match is diagonal and within
bounds, the stored row `j2len` is bounded by the diagonal kept-runs columnwise
and by the previous row's run rowwise (with the previous diagonal exact), and
`bestsize` dominates every processed diagonal run. -/
def OuterInv (x : List Char) (r : Nat) (st : FlmState) : Prop :=
  st.besti = st.bestj ∧ st.besti + st.bestsize ≤ x.length ∧
  (∀ j', alookup st.j2len j' ≤ diagRun x j') ∧
  (∀ j', alookup st.j2len j' ≤ (if r = 0 then 0 else diagRun x (r - 1))) ∧
  (0 < r → alookup st.j2len (r - 1) = diagRun x (r - 1)) ∧
  (∀ j, j < r → diagRun x j ≤ st.bestsize)

/-- Structural well-formedness of collapsed text, scanned with a
previous-was-whitespace flag: every whitespace character is a single ASCII
space, spaces are never adjacent, a trailing space is rejected, and with an
initial flag of `true` a leading space is rejected as well. -/
def collapsedAux : Bool → List Char → Bool
  | prev, [] => !prev
  | prev, c :: cs =>
    if isPyWs c then ((c == ' ') && !prev && collapsedAux true cs)
    else collapsedAux false cs

/-- Like `collapsedAux` but without the constraints at either end. -/
def innerOk : Bool → List Char → Bool
  | _, [] => true
  | prev, c :: cs =>
    if isPyWs c then ((c == ' ') && !prev && innerOk true cs)
    else innerOk false cs

/-- A character list is collapsed when it is empty or passes `collapsedAux`
with no leading space allowed. -/
def IsCollapsedL (l : List Char) : Prop := l = [] ∨ collapsedAux true l = true

/-! ## General helper lemmas -/

theorem foldl_append_eq_map {α β : Type} (f : α → β) :
    ∀ (l : List α) (acc : List β),
      l.foldl (fun acc a => acc ++ [f a]) acc = acc ++ l.map f := by
  intro l
  induction l with
  | nil => intro acc; simp
  | cons a l ih => intro acc; simp [ih]

/-! ## Claim C9 -/

theorem upsertStmt_last (e : Event) : (upsertStmt e).data.getLast? = some ';' := by
  show ((_ ++ "');") : String).data.getLast? = some ';'
  rw [String.data_append]
  have h : ("');" : String).data ≠ [] := by decide
  rw [List.getLast?_append_of_ne_nil _ h]
  decide

/-- Claim C9: `generate_upsert_sql` returns the empty string on an empty
list; otherwise one statement per event, newline-joined, each ending in a
semicolon, with every single quote in the three field values doubled (so
`O'Brien's Show` renders as `O''Brien''s Show`). -/
theorem C9_theorem :
    generate_upsert_sql [] = "" ∧
    (∀ events : List Event,
      generate_upsert_sql events = String.intercalate "\n" (events.map upsertStmt)) ∧
    (∀ e : Event, (upsertStmt e).data.getLast? = some ';') ∧
    escape_sql_string "O'Brien's Show" = "O''Brien''s Show" := by
  refine ⟨rfl, ?_, upsertStmt_last, by decide⟩
  intro events
  cases events with
  | nil => rfl
  | cons e es =>
    show (if ((e :: es).isEmpty) = true then "" else _) = _
    rw [if_neg (by simp)]
    rw [foldl_append_eq_map upsertStmt]
    rfl

/-! ## Claim C4 -/

/-- Claim C4 counterexample: the final step of `normalize_event_name` is
Python `str.lower`, not full Unicode case folding: on `"ß"` case folding
yields `"ss"` while the code returns `"ß"` unchanged. -/
theorem C4_counterexample :
    normalize_event_name "ß" = "ß" ∧ specNormalizeFold "ß" = "ss" ∧
    normalize_event_name "ß" ≠ specNormalizeFold "ß" :=
  ⟨rfl, rfl, by decide⟩

/-- Claim C4 (amended): `normalize_event_name` applies, in order, NFKC
normalization, replacement of the corner brackets by `"`, whitespace-run
collapse with trim, and finally Unicode lowercasing via `str.lower` (not
case folding). -/
theorem C4_amended_theorem :
    ∀ name : String, normalize_event_name name = specNormalizeLower name := fun _ => rfl

/-! ## Claim C6 -/

/-- Claim C6: `extract_start_time` tries the five patterns in their strict
order, returns the captured time of the first pattern matching anywhere with
the hour zero-padded to two digits, and returns `none` when no pattern
matches; in particular the three documented examples hold. -/
theorem C6_theorem :
    extract_start_time "開演17:00" = some "17:00" ∧
    extract_start_time "Starts 9:30" = some "09:30" ∧
    extract_start_time "Start time 18:00" = some "18:00" ∧
    extract_start_time "no time here" = none ∧
    (∀ text : String, extract_start_time text = none ↔
      search1 text = none ∧ search2 text = none ∧ search3 text = none ∧
      search4 text = none ∧ search5 text = none) ∧
    (∀ (text : String) (cap : List Char), search1 text = some cap →
      extract_start_time text = some (padHour cap)) ∧
    (∀ (text : String) (cap : List Char), search1 text = none → search2 text = some cap →
      extract_start_time text = some (padHour cap)) ∧
    (∀ (text : String) (cap : List Char), search1 text = none → search2 text = none →
      search3 text = some cap → extract_start_time text = some (padHour cap)) ∧
    (∀ (text : String) (cap : List Char), search1 text = none → search2 text = none →
      search3 text = none → search4 text = some cap →
      extract_start_time text = some (padHour cap)) ∧
    (∀ (text : String) (cap : List Char), search1 text = none → search2 text = none →
      search3 text = none → search4 text = none → search5 text = some cap →
      extract_start_time text = some (padHour cap)) := by
  refine ⟨by decide, by decide, by decide, by decide, ?_, ?_, ?_, ?_, ?_, ?_⟩
  · intro text
    unfold extract_start_time
    cases h1 : search1 text <;> cases h2 : search2 text <;> cases h3 : search3 text <;>
      cases h4 : search4 text <;> cases h5 : search5 text <;> simp
  · intro text cap h1
    unfold extract_start_time
    rw [h1]
  · intro text cap h1 h2
    unfold extract_start_time
    rw [h1, h2]
  · intro text cap h1 h2 h3
    unfold extract_start_time
    rw [h1, h2, h3]
  · intro text cap h1 h2 h3 h4
    unfold extract_start_time
    rw [h1, h2, h3, h4]
  · intro text cap h1 h2 h3 h4 h5
    unfold extract_start_time
    rw [h1, h2, h3, h4, h5]

/-- Claim C6 witness: a concrete text matched by pattern 2 only, with the
hour zero-padded. -/
theorem C6_witness :
    extract_start_time "ab開始 7:05" = some (padHour ['7', ':', '0', '5']) :=
  C6_theorem.2.2.2.2.2.2.1 "ab開始 7:05" ['7', ':', '0', '5'] (by decide) (by decide)

/-! ## Similarity threshold bridge -/

theorem threshold_le_ratio_iff (M T : Nat) :
    EVENT_NAME_SIMILARITY_THRESHOLD ≤ (if T = 0 then 1 else (2 * M : ℚ) / T) ↔
      4 * T ≤ 10 * M := by
  unfold EVENT_NAME_SIMILARITY_THRESHOLD
  split
  · rename_i h
    subst h
    norm_num
  · rename_i h
    have hT : (0 : ℚ) < T := by
      have : 0 < T := Nat.pos_of_ne_zero h
      exact_mod_cast this
    rw [le_div_iff₀ hT]
    constructor
    · intro hx
      have hq : (4 * T : ℚ) ≤ 10 * M := by linarith
      exact_mod_cast hq
    · intro hx
      have hq : (4 * T : ℚ) ≤ 10 * M := by exact_mod_cast hx
      push_cast at hq
      linarith

theorem is_same_event_name_iff (l r : String) :
    is_same_event_name l r = true ↔
      EVENT_NAME_SIMILARITY_THRESHOLD ≤ name_similarity l r := by
  have h := threshold_le_ratio_iff (smMatches l.data r.data) (l.data.length + r.data.length)
  unfold is_same_event_name name_similarity smRatio
  simp only [decide_eq_true_eq]
  exact h.symm

theorem is_same_event_name_false_iff (l r : String) :
    is_same_event_name l r = false ↔
      name_similarity l r < EVENT_NAME_SIMILARITY_THRESHOLD := by
  rw [← not_le, ← is_same_event_name_iff l r]
  cases h : is_same_event_name l r <;> simp [h]

/-! ## Claim C5 -/

/-- Claim C5: for two events with equal date and equal start time,
`deduplicate_events` merges them into the one with the longer normalized name
(ties keep the first) when the similarity of the normalized names is at least
0.80, and keeps both (in order) when it is below 0.80. -/
theorem C5_theorem (e1 e2 : Event) (hd : e1.date = e2.date)
    (ht : e1.start_time = e2.start_time) :
    (EVENT_NAME_SIMILARITY_THRESHOLD ≤
        name_similarity (normalize_event_name e1.name) (normalize_event_name e2.name) →
      deduplicate_events [e1, e2] =
        [if (normalize_event_name e1.name).length < (normalize_event_name e2.name).length
          then e2 else e1]) ∧
    (name_similarity (normalize_event_name e1.name) (normalize_event_name e2.name) <
        EVENT_NAME_SIMILARITY_THRESHOLD →
      deduplicate_events [e1, e2] = [e1, e2]) := by
  constructor
  · intro hsim
    have hsame := (is_same_event_name_iff _ _).mpr hsim
    simp [deduplicate_events, dedupStep, keyOf, updateGroups, processCands, hd, ht, hsame,
      prefer_event_name]
  · intro hsim
    have hdiff := (is_same_event_name_false_iff _ _).mpr hsim
    simp [deduplicate_events, dedupStep, keyOf, updateGroups, processCands, hd, ht, hdiff]

/-- Claim C5 witness: the spec's example pair merges to the longer name, and
a dissimilar pair at the same key is kept whole. -/
theorem C5_witness :
    deduplicate_events
        [⟨"2025-06-06", "Concert A", "18:00"⟩, ⟨"2025-06-06", "concert a!!", "18:00"⟩] =
      [⟨"2025-06-06", "concert a!!", "18:00"⟩] ∧
    deduplicate_events
        [⟨"2025-06-06", "abc", "18:00"⟩, ⟨"2025-06-06", "xyz", "18:00"⟩] =
      [⟨"2025-06-06", "abc", "18:00"⟩, ⟨"2025-06-06", "xyz", "18:00"⟩] := by
  constructor
  · have h := ( C5_theorem ⟨"2025-06-06", "Concert A", "18:00"⟩
      ⟨"2025-06-06", "concert a!!", "18:00"⟩ rfl rfl).1
      ((is_same_event_name_iff _ _).mp (by decide))
    exact h.trans (by decide)
  · have hlt : name_similarity (normalize_event_name "abc") (normalize_event_name "xyz") <
        EVENT_NAME_SIMILARITY_THRESHOLD :=
      (is_same_event_name_false_iff _ _).mp (by decide)
    exact ( C5_theorem ⟨"2025-06-06", "abc", "18:00"⟩ ⟨"2025-06-06", "xyz", "18:00"⟩
      rfl rfl).2 hlt

/-! ## Claim C10 -/

theorem updateGroups_not_mem (key : String × String) (e : Event) (nn : String) :
    ∀ groups, (∀ g ∈ groups, g.1 ≠ key) →
      updateGroups groups key e nn = groups ++ [(key, [(e, nn)])] := by
  intro groups
  induction groups with
  | nil => intro _; rfl
  | cons g rest ih =>
    intro h
    obtain ⟨k, grp⟩ := g
    have hk : k ≠ key := h (k, grp) (List.mem_cons_self _ _)
    simp only [updateGroups, if_neg hk, List.cons_append, List.cons.injEq, true_and]
    exact ih (fun g hg => h g (List.mem_cons_of_mem _ hg))

theorem dedup_fold_distinct :
    ∀ (l : List Event) (done : List Event),
      (∀ e ∈ l, ∀ d ∈ done, keyOf e ≠ keyOf d) →
      l.Pairwise (fun a b => keyOf a ≠ keyOf b) →
      l.foldl dedupStep (singletonGroups done) = singletonGroups (done ++ l) := by
  intro l
  induction l with
  | nil => intro done _ _; simp
  | cons e rest ih =>
    intro done hdist hpw
    have hstep : dedupStep (singletonGroups done) e = singletonGroups (done ++ [e]) := by
      unfold dedupStep
      rw [updateGroups_not_mem (keyOf e) e (normalize_event_name e.name) (singletonGroups done)]
      · simp [singletonGroups]
      · intro g hg
        simp only [singletonGroups, List.mem_map] at hg
        obtain ⟨d, hd, rfl⟩ := hg
        exact fun hkey => hdist e (List.mem_cons_self _ _) d hd hkey.symm
    rw [List.foldl_cons, hstep, ih (done ++ [e])]
    · simp
    · intro e' he' d hd
      rcases List.mem_append.mp hd with hdo | hde
      · exact hdist e' (List.mem_cons_of_mem _ he') d hdo
      · have : d = e := by simpa using hde
        subst this
        exact ((List.pairwise_cons.mp hpw).1 e' he').symm
    · exact (List.pairwise_cons.mp hpw).2

theorem flatMap_singletonGroups :
    ∀ l : List Event,
      (singletonGroups l).flatMap (fun g => g.2.map Prod.fst) = l := by
  intro l
  induction l with
  | nil => rfl
  | cons e rest ih => simp [singletonGroups, List.flatMap] at ih ⊢; exact ih

/-- Claim C10: on a list of events whose `(date, start_time)` keys are
pairwise distinct, `deduplicate_events` is the identity. -/
theorem C10_theorem (events : List Event)
    (h : events.Pairwise
      (fun a b => (a.date, a.start_time) ≠ (b.date, b.start_time))) :
    deduplicate_events events = events := by
  unfold deduplicate_events
  have hfold := dedup_fold_distinct events [] (by simp) (by exact h)
  have hempty : singletonGroups [] = [] := rfl
  rw [hempty] at hfold
  rw [hfold]
  simpa using flatMap_singletonGroups events

/-- Claim C10 witness: two events with distinct keys pass through
unchanged. -/
theorem C10_witness :
    deduplicate_events [⟨"2025-06-06", "A", "10:00"⟩, ⟨"2025-06-07", "A", "10:00"⟩] =
      [⟨"2025-06-06", "A", "10:00"⟩, ⟨"2025-06-07", "A", "10:00"⟩] :=
  C10_theorem _ (by decide)

/-! ## Claim C2 -/

theorem findSome?_map_succ {β : Type} (f : Nat → Option β) (l : List Nat) :
    (l.map Nat.succ).findSome? f = l.findSome? (fun i => f (i + 1)) := by
  induction l with
  | nil => rfl
  | cons a l ih =>
    simp only [List.map_cons, List.findSome?_cons]
    cases f (a + 1) <;> simp_all

theorem scanHeaders_eq (year month : Nat) :
    ∀ nodes : List HNode,
      scanHeaders year month nodes =
        (List.range nodes.length).findSome? (fun i =>
          if isCalendarHeader (nodes.getD i (.text "")) &&
             headerMatches (nodes.getD i (.text "")) year month then
            (nodes.drop (i + 1)).find? isTable
          else none) := by
  intro nodes
  induction nodes with
  | nil => rfl
  | cons n rest ih =>
    rw [List.length_cons, List.range_succ_eq_map, List.findSome?_cons, findSome?_map_succ]
    simp only [List.getD_cons_succ, List.drop_succ_cons, List.getD_cons_zero, List.drop_succ_cons]
    by_cases hcond : (isCalendarHeader n && headerMatches n year month) = true
    · cases hfind : ((n :: rest).drop 1).find? isTable with
      | some t => simp only [scanHeaders, hcond, if_true, List.drop_succ_cons,
          List.drop_zero] at hfind ⊢; rw [hfind]
      | none => simp only [scanHeaders, hcond, if_true, List.drop_succ_cons,
          List.drop_zero] at hfind ⊢; rw [hfind]; exact ih
    · have hfalse : (isCalendarHeader n && headerMatches n year month) = false := by
        simpa using hcond
      simp only [scanHeaders, hfalse]
      simp [ih]

/-- Claim C2 counterexample: a calendar header carrying the English pattern
only inside a comment (so in raw markup but not in visible text), followed by
a table.  Under the claim's matching rule (either pattern in markup or in
text) the table should be returned, but `find_month_table` returns `none`:
the code checks the English pattern against visible text only. -/
theorem C2_counterexample :
    claimHeaderMatch (.elem "p" ["c-ttl-set-calender"] [.comment "June 2025"]) 2025 6 = true ∧
    locateBy claimHeaderMatch
        (.elem "body" [] [.elem "p" ["c-ttl-set-calender"] [.comment "June 2025"],
          .elem "table" [] []]) 2025 6 = some (.elem "table" [] []) ∧
    find_month_table
        (.elem "body" [] [.elem "p" ["c-ttl-set-calender"] [.comment "June 2025"],
          .elem "table" [] []]) 2025 6 = none :=
  ⟨rfl, rfl, rfl⟩

/-- Claim C2 (amended): `find_month_table` scans the headers in document
order; a header matches when the Japanese string occurs in its raw serialized
markup or its visible text, or the English string occurs in its visible text
(markup is not checked for the English string); the first matching header
followed by a table yields the nearest following table, headers without a
following table are skipped, and no match yields `none`. -/
theorem C2_amended_theorem (doc : HNode) (year month : Nat)
    (_h1 : 1 ≤ month) (_h2 : month ≤ 12) :
    find_month_table doc year month = locateBy specHeaderMatch doc year month := by
  unfold find_month_table locateBy
  rw [scanHeaders_eq year month (preorder doc)]
  rfl

/-- Claim C2 witness: the locator agrees with the amended spec-side locator
on a concrete document for June 2025. -/
theorem C2_amended_witness :
    find_month_table
        (.elem "body" [] [.elem "p" ["c-ttl-set-calender"] [.text "2025年06月"],
          .elem "table" [] []]) 2025 6 =
      locateBy specHeaderMatch
        (.elem "body" [] [.elem "p" ["c-ttl-set-calender"] [.text "2025年06月"],
          .elem "table" [] []]) 2025 6 :=
  C2_amended_theorem _ 2025 6 (by decide) (by decide)

/-! ## Claim C1 -/

theorem rowsLoop_eq_filterMap (year month : Nat) (rows : List HNode) :
    rowsLoop year month rows = rows.filterMap (rowEvent year month) := by
  have h : ∀ (l : List HNode) (acc : List Event),
      l.foldl (fun acc row => match rowEvent year month row with
        | some e => acc ++ [e]
        | none => acc) acc = acc ++ l.filterMap (rowEvent year month) := by
    intro l
    induction l with
    | nil => intro acc; simp
    | cons r l ih => intro acc; cases hr : rowEvent year month r <;> simp [hr, ih]
  exact (h rows []).trans (by simp)

/-- Claim C1 counterexample: a month table with two identical qualifying rows
produces two raw candidates, but `parse_events` returns only one event: the
function applies `deduplicate_events` before returning (main.py line 272), so
it does not return the raw candidates one per qualifying row. -/
theorem C1_counterexample :
    parse_events_raw
        (.elem "body" [] [.elem "p" ["c-ttl-set-calender"] [.text "2025年06月"],
          .elem "table" []
            [.elem "tr" [] [.elem "td" [] [.text "06 (金)"],
               .elem "td" [] [.elem "a" [] [.text "Concert"]]],
             .elem "tr" [] [.elem "td" [] [.text "06 (金)"],
               .elem "td" [] [.elem "a" [] [.text "Concert"]]]]]) 2025 6 =
      [⟨"2025-06-06", "Concert", "00:00"⟩, ⟨"2025-06-06", "Concert", "00:00"⟩] ∧
    parse_events
        (.elem "body" [] [.elem "p" ["c-ttl-set-calender"] [.text "2025年06月"],
          .elem "table" []
            [.elem "tr" [] [.elem "td" [] [.text "06 (金)"],
               .elem "td" [] [.elem "a" [] [.text "Concert"]]],
             .elem "tr" [] [.elem "td" [] [.text "06 (金)"],
               .elem "td" [] [.elem "a" [] [.text "Concert"]]]]]) 2025 6 =
      [⟨"2025-06-06", "Concert", "00:00"⟩] := by
  constructor
  · decide
  · decide

/-- Claim C1 (amended): `parse_events` builds one candidate per qualifying
row of the located section, in row document order, and returns the result of
applying `deduplicate_events` to that candidate list (it is not the raw list:
fuzzy deduplication is applied before returning). -/
theorem C1_amended_theorem (doc : HNode) (year month : Nat) :
    parse_events_raw doc year month = specRowCandidates doc year month ∧
    parse_events doc year month =
      deduplicate_events (specRowCandidates doc year month) := by
  unfold parse_events_raw parse_events specRowCandidates
  cases find_month_table doc year month with
  | none => exact ⟨rfl, rfl⟩
  | some table =>
    constructor
    · show rowsLoop year month ((descendants table).filter isTr) =
        ((descendants table).filter isTr).filterMap (rowEvent year month)
      exact rowsLoop_eq_filterMap year month _
    · show deduplicate_events (rowsLoop year month ((descendants table).filter isTr)) =
        deduplicate_events (((descendants table).filter isTr).filterMap (rowEvent year month))
      rw [rowsLoop_eq_filterMap]

/-! ## Claim C8 -/

theorem isDig_digitChar : ∀ n : Nat, n ≤ 9 → isDig (digitChar n) = true := by decide

theorem digitVal_le (c : Char) (h : isDig c = true) : digitVal c ≤ 9 := by
  simp only [isDig, Bool.and_eq_true, decide_eq_true_eq] at h
  unfold digitVal
  omega

theorem digitsToNat_two_le (a b : Char) (ha : isDig a = true) (hb : isDig b = true) :
    digitsToNat [a, b] ≤ 99 := by
  have h1 := digitVal_le a ha
  have h2 := digitVal_le b hb
  simp only [digitsToNat, List.foldl_cons, List.foldl_nil]
  omega

theorem digitsToNat_one_le (a : Char) (ha : isDig a = true) : digitsToNat [a] ≤ 99 := by
  have h1 := digitVal_le a ha
  simp only [digitsToNat, List.foldl_cons, List.foldl_nil]
  omega

theorem natDigitsAux_one (fuel n : Nat) (hf : 1 ≤ fuel) (hn : n < 10) :
    natDigitsAux fuel n = [digitChar n] := by
  cases fuel with
  | zero => omega
  | succ f => simp [natDigitsAux, hn]

theorem natDigitsAux_two (fuel n : Nat) (hf : 2 ≤ fuel) (h1 : 10 ≤ n) (h2 : n < 100) :
    natDigitsAux fuel n = [digitChar (n / 10), digitChar (n % 10)] := by
  cases fuel with
  | zero => omega
  | succ f =>
    have : ¬ n < 10 := by omega
    simp only [natDigitsAux, this, if_false]
    rw [natDigitsAux_one f (n / 10) (by omega) (by omega)]
    simp

theorem natDigitsAux_three (fuel n : Nat) (hf : 3 ≤ fuel) (h1 : 100 ≤ n) (h2 : n < 1000) :
    natDigitsAux fuel n =
      [digitChar (n / 100), digitChar (n / 10 % 10), digitChar (n % 10)] := by
  cases fuel with
  | zero => omega
  | succ f =>
    have : ¬ n < 10 := by omega
    simp only [natDigitsAux, this, if_false]
    rw [natDigitsAux_two f (n / 10) (by omega) (by omega) (by omega)]
    simp [Nat.div_div_eq_div_mul]

theorem natDigitsAux_four (fuel n : Nat) (hf : 4 ≤ fuel) (h1 : 1000 ≤ n) (h2 : n < 10000) :
    natDigitsAux fuel n =
      [digitChar (n / 1000), digitChar (n / 100 % 10), digitChar (n / 10 % 10),
        digitChar (n % 10)] := by
  cases fuel with
  | zero => omega
  | succ f =>
    have : ¬ n < 10 := by omega
    simp only [natDigitsAux, this, if_false]
    rw [natDigitsAux_three f (n / 10) (by omega) (by omega) (by omega)]
    simp [Nat.div_div_eq_div_mul]

theorem natRepr_four (y : Nat) (h1 : 1000 ≤ y) (h2 : y ≤ 9999) :
    (natRepr y).data =
      [digitChar (y / 1000), digitChar (y / 100 % 10), digitChar (y / 10 % 10),
        digitChar (y % 10)] := by
  unfold natRepr natDigits
  rw [natDigitsAux_four (y + 1) y (by omega) h1 (by omega)]

theorem pad2_shape (n : Nat) (h : n ≤ 99) :
    ∃ a b, (pad2 n).data = [a, b] ∧ isDig a = true ∧ isDig b = true := by
  unfold pad2
  by_cases hn : n < 10
  · refine ⟨'0', digitChar n, ?_, by decide, isDig_digitChar n (by omega)⟩
    rw [if_pos hn, String.data_append]
    unfold natRepr natDigits
    rw [natDigitsAux_one (n + 1) n (by omega) hn]
    rfl
  · refine ⟨digitChar (n / 10), digitChar (n % 10), ?_,
      isDig_digitChar _ (by omega), isDig_digitChar _ (by omega)⟩
    rw [if_neg hn]
    unfold natRepr natDigits
    rw [natDigitsAux_two (n + 1) n (by omega) (by omega) (by omega)]

theorem matchDateFormat_fmtDate (y m d : Nat) (hy1 : 1000 ≤ y) (hy2 : y ≤ 9999)
    (hm : m ≤ 99) (hd : d ≤ 99) : matchDateFormat (fmtDate y m d) = true := by
  obtain ⟨m1, m2, hmdata, hm1, hm2⟩ := pad2_shape m hm
  obtain ⟨d1, d2, hddata, hd1, hd2⟩ := pad2_shape d hd
  have hdata : (fmtDate y m d).data =
      [digitChar (y / 1000), digitChar (y / 100 % 10), digitChar (y / 10 % 10),
        digitChar (y % 10), '-', m1, m2, '-', d1, d2] := by
    unfold fmtDate
    rw [String.data_append, String.data_append, String.data_append, String.data_append,
      natRepr_four y hy1 hy2, hmdata, hddata]
    rfl
  unfold matchDateFormat
  rw [hdata]
  simp [isDig_digitChar _ (by omega : y / 1000 ≤ 9),
    isDig_digitChar _ (by omega : y / 100 % 10 ≤ 9),
    isDig_digitChar _ (by omega : y / 10 % 10 ≤ 9),
    isDig_digitChar _ (by omega : y % 10 ≤ 9), hm1, hm2, hd1, hd2]

theorem isDig_ne_colon (c : Char) (h : isDig c = true) : (c ≠ ':') := by
  intro heq
  subst heq
  simp [isDig] at h

theorem padHour_format (cap : List Char) (h : TimeCap cap) :
    matchTimeFormat (padHour cap) = true := by
  have main : ∀ hour mins, (∀ c ∈ hour, isDig c = true) → digitsToNat hour ≤ 99 →
      (∀ c ∈ mins, isDig c = true) → mins.length = 2 →
      matchTimeFormat (pad2 (digitsToNat hour) ++ ":" ++ String.mk mins) = true := by
    intro hour mins _ hle hminsd hlen
    obtain ⟨a, b, hdata, hda, hdb⟩ := pad2_shape (digitsToNat hour) hle
    match mins, hlen with
    | [x, y], _ =>
      have hx := hminsd x (by simp)
      have hy := hminsd y (by simp)
      have : (pad2 (digitsToNat hour) ++ ":" ++ String.mk [x, y]).data =
          [a, b, ':', x, y] := by
        rw [String.data_append, String.data_append, hdata]
        rfl
      unfold matchTimeFormat
      rw [this]
      simp [hda, hdb, hx, hy]
  rcases h with ⟨c1, c2, d1, d2, rfl, h1, h2, h3, h4⟩ | ⟨c1, d1, d2, rfl, h1, h3, h4⟩
  · have htake : ([c1, c2, ':', d1, d2].takeWhile (fun c => c ≠ ':')) = [c1, c2] := by
      simp [List.takeWhile, isDig_ne_colon c1 h1, isDig_ne_colon c2 h2]
    have hdrop : (([c1, c2, ':', d1, d2].dropWhile (fun c => c ≠ ':')).drop 1) = [d1, d2] := by
      simp [List.dropWhile, isDig_ne_colon c1 h1, isDig_ne_colon c2 h2]
    unfold padHour
    rw [htake, hdrop]
    exact main [c1, c2] [d1, d2] (by simp [h1, h2]) (digitsToNat_two_le c1 c2 h1 h2)
      (by simp [h3, h4]) rfl
  · have htake : ([c1, ':', d1, d2].takeWhile (fun c => c ≠ ':')) = [c1] := by
      simp [List.takeWhile, isDig_ne_colon c1 h1]
    have hdrop : (([c1, ':', d1, d2].dropWhile (fun c => c ≠ ':')).drop 1) = [d1, d2] := by
      simp [List.dropWhile, isDig_ne_colon c1 h1]
    unfold padHour
    rw [htake, hdrop]
    exact main [c1] [d1, d2] (by simp [h1]) (digitsToNat_one_le c1 h1)
      (by simp [h3, h4]) rfl

theorem time2At_cap (l : List Char) (cap : List Char) (h : time2At l = some cap) :
    TimeCap cap := by
  unfold time2At at h
  split at h
  · rename_i c1 c2 d1 d2 rest
    split at h
    · rename_i hd
      simp only [Option.some.injEq] at h
      subst h
      simp only [Bool.and_eq_true] at hd
      exact Or.inl ⟨c1, c2, d1, d2, rfl, hd.1.1.1, hd.1.1.2, hd.1.2, hd.2⟩
    · exact absurd h (by simp)
  · exact absurd h (by simp)

theorem time1At_cap (l : List Char) (cap : List Char) (h : time1At l = some cap) :
    TimeCap cap := by
  unfold time1At at h
  split at h
  · rename_i c1 d1 d2 rest
    split at h
    · rename_i hd
      simp only [Option.some.injEq] at h
      subst h
      simp only [Bool.and_eq_true] at hd
      exact Or.inr ⟨c1, d1, d2, rfl, hd.1.1, hd.1.2, hd.2⟩
    · exact absurd h (by simp)
  · exact absurd h (by simp)

theorem timeAt_cap (l : List Char) (cap : List Char) (h : timeAt l = some cap) :
    TimeCap cap := by
  unfold timeAt at h
  cases h2 : time2At l with
  | some r => rw [h2] at h; cases h; exact time2At_cap l _ h2
  | none => rw [h2] at h; exact time1At_cap l cap h

theorem p1At_cap (l cap : List Char) (h : p1At l = some cap) : TimeCap cap := by
  unfold p1At at h
  split at h
  · exact timeAt_cap _ _ h
  · exact absurd h (by simp)

theorem p2At_cap (l cap : List Char) (h : p2At l = some cap) : TimeCap cap := by
  unfold p2At at h
  split at h
  · exact timeAt_cap _ _ h
  · exact absurd h (by simp)

theorem p5At_cap (l cap : List Char) (h : p5At l = some cap) : TimeCap cap := by
  unfold p5At at h
  split at h
  · exact timeAt_cap _ _ h
  · exact absurd h (by simp)

theorem timeTail3_cap (l cap : List Char) (h : timeTail3 l = some cap) : TimeCap cap := by
  unfold timeTail3 at h
  split at h
  · exact absurd h (by simp)
  · split at h
    · split at h
      · exact absurd h (by simp)
      · exact timeAt_cap _ _ h
    · exact absurd h (by simp)

theorem timeTail4_cap (l cap : List Char) (h : timeTail4 l = some cap) : TimeCap cap :=
  timeAt_cap _ _ h

theorem p3At_cap (l cap : List Char) (h : p3At l = some cap) : TimeCap cap := by
  unfold p3At at h
  split at h
  · split at h
    · split at h
      · rename_i rest2
        cases h3 : timeTail3 rest2 with
        | some r => rw [h3] at h; cases h; exact timeTail3_cap _ _ h3
        | none => rw [h3] at h; exact timeTail3_cap _ _ h
      · exact timeTail3_cap _ _ h
    · exact absurd h (by simp)
  · exact absurd h (by simp)

theorem p4At_cap (l cap : List Char) (h : p4At l = some cap) : TimeCap cap := by
  unfold p4At at h
  split at h
  · split at h
    · split at h
      · rename_i rest2
        cases h3 : timeTail4 rest2 with
        | some r => rw [h3] at h; cases h; exact timeTail4_cap _ _ h3
        | none => rw [h3] at h; exact timeTail4_cap _ _ h
      · exact timeTail4_cap _ _ h
    · exact absurd h (by simp)
  · exact absurd h (by simp)

theorem searchAux_cap (pAt : List Char → Option (List Char))
    (hp : ∀ l cap, pAt l = some cap → TimeCap cap) :
    ∀ l cap, searchAux pAt l = some cap → TimeCap cap := by
  intro l
  induction l with
  | nil => intro cap h; exact absurd h (by simp [searchAux])
  | cons c rest ih =>
    intro cap h
    unfold searchAux at h
    cases hc : pAt (c :: rest) with
    | some r => rw [hc] at h; cases h; exact hp _ _ hc
    | none => rw [hc] at h; exact ih cap h

theorem extract_start_time_format (text : String) (s : String)
    (h : extract_start_time text = some s) : matchTimeFormat s = true := by
  unfold extract_start_time at h
  cases h1 : search1 text with
  | some cap =>
    rw [h1] at h; cases h
    exact padHour_format cap (searchAux_cap p1At p1At_cap _ _ h1)
  | none =>
  rw [h1] at h
  cases h2 : search2 text with
  | some cap =>
    rw [h2] at h; cases h
    exact padHour_format cap (searchAux_cap p2At p2At_cap _ _ h2)
  | none =>
  rw [h2] at h
  cases h3 : search3 text with
  | some cap =>
    rw [h3] at h; cases h
    exact padHour_format cap (searchAux_cap p3At p3At_cap _ _ h3)
  | none =>
  rw [h3] at h
  cases h4 : search4 text with
  | some cap =>
    rw [h4] at h; cases h
    exact padHour_format cap (searchAux_cap p4At p4At_cap _ _ h4)
  | none =>
  rw [h4] at h
  cases h5 : search5 text with
  | some cap =>
    rw [h5] at h; cases h
    exact padHour_format cap (searchAux_cap p5At p5At_cap _ _ h5)
  | none => rw [h5] at h; exact absurd h (by simp)

theorem leadingDayDigits_le (s : String) (day : Nat)
    (h : leadingDayDigits s = some day) : day ≤ 99 := by
  unfold leadingDayDigits at h
  match hl : s.data, h with
  | c1 :: c2 :: rest, h =>
    simp only [leadDigitsCh] at h
    split at h
    · rename_i hc1
      have h' : (if isDig c2 = true then digitsToNat [c1, c2] else digitsToNat [c1]) = day := by
        simpa using h
      subst h'
      by_cases hc2 : isDig c2 = true
      · rw [if_pos hc2]; exact digitsToNat_two_le c1 c2 hc1 hc2
      · rw [if_neg hc2]; exact digitsToNat_one_le c1 hc1
    · exact absurd h (by simp)
  | [c1], h =>
    simp only [leadDigitsCh] at h
    split at h
    · rename_i hc1
      have h' : digitsToNat [c1] = day := by simpa using h
      subst h'
      exact digitsToNat_one_le c1 hc1
    · exact absurd h (by simp)
  | [], h => exact absurd h (by simp [leadDigitsCh])

theorem rowEvent_props (year month : Nat) (row : HNode) (e : Event)
    (hy1 : 1000 ≤ year) (hy2 : year ≤ 9999) (hm : month ≤ 99)
    (h : rowEvent year month row = some e) :
    matchDateFormat e.date = true ∧ matchTimeFormat e.start_time = true ∧ e.name ≠ "" := by
  unfold rowEvent at h
  split at h
  · rename_i c0 c1 tail heq
    cases hday : leadingDayDigits (getTextStrip c0) with
    | none => rw [hday] at h; exact absurd h (by simp)
    | some day =>
      rw [hday] at h
      dsimp only [] at h
      by_cases hct : getTextStrip c1 = ""
      · rw [if_pos hct] at h; exact absurd h (by simp)
      · rw [if_neg hct] at h
        cases hname : extract_event_name c1 with
        | none => rw [hname] at h; exact absurd h (by simp)
        | some nm =>
          rw [hname] at h
          dsimp only [] at h
          by_cases hnm : nm = ""
          · rw [if_pos hnm] at h; exact absurd h (by simp)
          · rw [if_neg hnm] at h
            have he : (⟨fmtDate year month day, nm,
                (extract_start_time (getTextStrip c1)).getD "00:00"⟩ : Event) = e := by
              simpa using h
            subst he
            refine ⟨matchDateFormat_fmtDate year month day hy1 hy2 hm
              (leadingDayDigits_le _ _ hday), ?_, hnm⟩
            cases hst : extract_start_time (getTextStrip c1) with
            | none => simp only [hst, Option.getD_none]; decide
            | some s =>
              simp only [hst, Option.getD_some]
              exact extract_start_time_format _ _ hst
  · exact absurd h (by simp)

theorem prefer_mem (a b : Event) :
    prefer_event_name a b = a ∨ prefer_event_name a b = b := by
  unfold prefer_event_name
  split
  · exact Or.inr rfl
  · exact Or.inl rfl

theorem processCands_mem :
    ∀ (cands : List (Event × String)) (ev : Event) (nn : String) (p : Event × String),
      p ∈ processCands cands ev nn → p.1 ∈ cands.map Prod.fst ∨ p.1 = ev := by
  intro cands
  induction cands with
  | nil =>
    intro ev nn p hp
    simp only [processCands, List.mem_singleton] at hp
    subst hp
    exact Or.inr rfl
  | cons c rest ih =>
    intro ev nn p hp
    obtain ⟨ex, exn⟩ := c
    by_cases hs : is_same_event_name exn nn = true
    · rw [processCands, if_pos hs] at hp
      rcases List.mem_cons.mp hp with rfl | hmem
      · rcases prefer_mem ex ev with hpe | hpe
        · exact Or.inl (by simp [hpe])
        · exact Or.inr (by simp [hpe])
      · exact Or.inl (by simp; exact Or.inr ⟨p.2, by simpa using hmem⟩)
    · rw [processCands, if_neg hs] at hp
      rcases List.mem_cons.mp hp with rfl | hmem
      · exact Or.inl (by simp)
      · rcases ih ev nn p hmem with hl | hr
        · exact Or.inl (by simp at hl ⊢; tauto)
        · exact Or.inr hr

theorem updateGroups_mem :
    ∀ (groups : List ((String × String) × List (Event × String)))
      (key : String × String) (ev : Event) (nn : String)
      (g' : (String × String) × List (Event × String)),
      g' ∈ updateGroups groups key ev nn → ∀ p ∈ g'.2,
        (∃ g ∈ groups, p.1 ∈ g.2.map Prod.fst) ∨ p.1 = ev := by
  intro groups
  induction groups with
  | nil =>
    intro key ev nn g' hg' p hp
    simp only [updateGroups, List.mem_singleton] at hg'
    subst hg'
    rcases processCands_mem [] ev nn p hp with hl | hr
    · simp at hl
    · exact Or.inr hr
  | cons g rest ih =>
    intro key ev nn g' hg' p hp
    obtain ⟨k, grp⟩ := g
    by_cases hk : k = key
    · rw [updateGroups, if_pos hk] at hg'
      rcases List.mem_cons.mp hg' with rfl | hmem
      · rcases processCands_mem grp ev nn p hp with hl | hr
        · exact Or.inl ⟨(k, grp), List.mem_cons_self _ _, hl⟩
        · exact Or.inr hr
      · exact Or.inl ⟨g', List.mem_cons_of_mem _ hmem, List.mem_map_of_mem _ hp⟩
    · rw [updateGroups, if_neg hk] at hg'
      rcases List.mem_cons.mp hg' with rfl | hmem
      · exact Or.inl ⟨(k, grp), List.mem_cons_self _ _, List.mem_map_of_mem _ hp⟩
      · rcases ih key ev nn g' hmem p hp with ⟨g0, hg0, hpg0⟩ | hr
        · exact Or.inl ⟨g0, List.mem_cons_of_mem _ hg0, hpg0⟩
        · exact Or.inr hr

theorem storedEvents_dedupStep
    (groups : List ((String × String) × List (Event × String))) (ev e' : Event)
    (h : e' ∈ storedEvents (dedupStep groups ev)) :
    e' ∈ storedEvents groups ∨ e' = ev := by
  unfold storedEvents at h
  simp only [List.mem_flatMap, List.mem_map] at h
  obtain ⟨g', hg', p, hp, rfl⟩ := h
  rcases updateGroups_mem groups (keyOf ev) ev (normalize_event_name ev.name) g' hg' p hp with
    ⟨g, hgmem, hpg⟩ | heq
  · left
    unfold storedEvents
    simp only [List.mem_flatMap]
    exact ⟨g, hgmem, hpg⟩
  · exact Or.inr heq

theorem dedup_fold_mem :
    ∀ (l : List Event) (acc : List ((String × String) × List (Event × String)))
      (e' : Event), e' ∈ storedEvents (l.foldl dedupStep acc) →
        e' ∈ storedEvents acc ∨ e' ∈ l := by
  intro l
  induction l with
  | nil => intro acc e' h; exact Or.inl h
  | cons ev rest ih =>
    intro acc e' h
    rcases ih (dedupStep acc ev) e' h with hacc | hrest
    · rcases storedEvents_dedupStep acc ev e' hacc with h1 | h2
      · exact Or.inl h1
      · exact Or.inr (h2 ▸ List.mem_cons_self _ _)
    · exact Or.inr (List.mem_cons_of_mem _ hrest)

theorem mem_of_mem_deduplicate (l : List Event) (e' : Event)
    (h : e' ∈ deduplicate_events l) : e' ∈ l := by
  have h' : e' ∈ storedEvents (l.foldl dedupStep []) := h
  rcases dedup_fold_mem l [] e' h' with h0 | hl
  · simp [storedEvents] at h0
  · exact hl

/-- Claim C8 (amended): for every document, every four-digit year (1000 to
9999) and month 1..12, every event produced by `parse_events` has a date
matching `^\d{4}-\d{2}-\d{2}$`, a start time matching `^\d{2}:\d{2}$`, and a
non-empty name.  (For years outside four digits the date is not zero-padded
and the date invariant fails, see the counterexample.) -/
theorem C8_amended_theorem (doc : HNode) (year month : Nat) (e : Event)
    (hy1 : 1000 ≤ year) (hy2 : year ≤ 9999) (hm1 : 1 ≤ month) (hm2 : month ≤ 12)
    (h : e ∈ parse_events doc year month) :
    matchDateFormat e.date = true ∧ matchTimeFormat e.start_time = true ∧ e.name ≠ "" := by
  unfold parse_events at h
  cases hft : find_month_table doc year month with
  | none => rw [hft] at h; exact absurd h (by simp)
  | some table =>
    rw [hft] at h
    have hmem := mem_of_mem_deduplicate _ _ h
    rw [rowsLoop_eq_filterMap] at hmem
    obtain ⟨row, hrow, hre⟩ := List.mem_filterMap.mp hmem
    exact rowEvent_props year month row e hy1 hy2 (by omega) hre

/-- Claim C8 counterexample: with the three-digit year 999 the produced date
`999-06-06` does not match `^\d{4}-\d{2}-\d{2}$`: the year is formatted
unpadded by `f"{year}-..."`, while the claim quantifies over every year. -/
theorem C8_counterexample :
    parse_events
        (.elem "body" [] [.elem "p" ["c-ttl-set-calender"] [.text "999年06月"],
          .elem "table" []
            [.elem "tr" [] [.elem "td" [] [.text "06 (金)"],
               .elem "td" [] [.elem "a" [] [.text "Concert"]]]]]) 999 6 =
      [⟨"999-06-06", "Concert", "00:00"⟩] ∧
    matchDateFormat "999-06-06" = false :=
  ⟨by decide, by decide⟩

/-- Claim C8 witness: the invariants hold for a concrete parsed event of June
2025. -/
theorem C8_amended_witness :
    matchDateFormat ("2025-06-06" : String) = true ∧
    matchTimeFormat ("00:00" : String) = true ∧ ("Concert" : String) ≠ "" :=
  C8_amended_theorem
    (.elem "body" [] [.elem "p" ["c-ttl-set-calender"] [.text "2025年06月"],
      .elem "table" [] [.elem "tr" [] [.elem "td" [] [.text "06 (金)"],
        .elem "td" [] [.elem "a" [] [.text "Concert"]]]]]) 2025 6
    ⟨"2025-06-06", "Concert", "00:00"⟩ (by decide) (by decide) (by decide) (by decide)
    (by decide)

/-! ## Claim C3

`ratio(x, x) = 1.0` for every string, autojunk included.  On identical
sequences every best-match update of the j2len dynamic program happens on the
diagonal: a cell `(i, j)` with `j ≠ i` is bounded by the diagonal kept-run
`diagRun` at `min i j`, whose value has already been offered to `bestsize`.
The extension loops then stretch the diagonal best to the full window. -/

theorem mem_positionsFrom_bounds (c : Char) :
    ∀ (l : List Char) (s j : Nat), j ∈ positionsFrom c l s → s ≤ j ∧ j < s + l.length := by
  intro l
  induction l with
  | nil => intro s j h; exact absurd h (by simp [positionsFrom])
  | cons d rest ih =>
    intro s j h
    unfold positionsFrom at h
    by_cases hd : d = c
    · rw [if_pos hd] at h
      rcases List.mem_cons.mp h with rfl | hmem
      · simp
      · have := ih (s + 1) j hmem
        constructor <;> [omega; (simp only [List.length_cons]; omega)]
    · rw [if_neg hd] at h
      have := ih (s + 1) j h
      constructor <;> [omega; (simp only [List.length_cons]; omega)]

theorem mem_positionsFrom_getD (c : Char) :
    ∀ (l : List Char) (s j : Nat), j ∈ positionsFrom c l s → l.getD (j - s) ' ' = c := by
  intro l
  induction l with
  | nil => intro s j h; exact absurd h (by simp [positionsFrom])
  | cons d rest ih =>
    intro s j h
    unfold positionsFrom at h
    by_cases hd : d = c
    · rw [if_pos hd] at h
      rcases List.mem_cons.mp h with rfl | hmem
      · simpa using hd
      · have hs := (mem_positionsFrom_bounds c rest (s + 1) j hmem).1
        have := ih (s + 1) j hmem
        have hj : j - s = (j - (s + 1)) + 1 := by omega
        rw [hj]
        simpa using this
    · rw [if_neg hd] at h
      have hs := (mem_positionsFrom_bounds c rest (s + 1) j h).1
      have := ih (s + 1) j h
      have hj : j - s = (j - (s + 1)) + 1 := by omega
      rw [hj]
      simpa using this

theorem self_mem_positionsFrom (c : Char) :
    ∀ (l : List Char) (s t : Nat), t < l.length → l.getD t ' ' = c →
      s + t ∈ positionsFrom c l s := by
  intro l
  induction l with
  | nil => intro s t h; simp at h
  | cons d rest ih =>
    intro s t ht hc
    unfold positionsFrom
    cases t with
    | zero =>
      simp only [List.getD_cons_zero] at hc
      rw [if_pos hc]
      simp
    | succ t' =>
      simp only [List.getD_cons_succ] at hc
      have hmem := ih (s + 1) t' (by simpa using ht) hc
      have harith : s + (t' + 1) = (s + 1) + t' := by omega
      by_cases hd : d = c
      · rw [if_pos hd]
        exact List.mem_cons_of_mem _ (harith ▸ hmem)
      · rw [if_neg hd]
        exact harith ▸ hmem

theorem positionsFrom_ge (c : Char) :
    ∀ (l : List Char) (s : Nat), ∀ j ∈ positionsFrom c l s, s ≤ j := by
  intro l s j h
  exact (mem_positionsFrom_bounds c l s j h).1

theorem positionsFrom_sorted (c : Char) :
    ∀ (l : List Char) (s : Nat), (positionsFrom c l s).Pairwise (· < ·) := by
  intro l
  induction l with
  | nil => intro s; simp [positionsFrom]
  | cons d rest ih =>
    intro s
    unfold positionsFrom
    by_cases hd : d = c
    · rw [if_pos hd]
      refine List.pairwise_cons.mpr ⟨?_, ih (s + 1)⟩
      intro j hj
      have := positionsFrom_ge c rest (s + 1) j hj
      omega
    · rw [if_neg hd]
      exact ih (s + 1)

theorem mem_b2j_lt (x : List Char) (c : Char) (j : Nat) (h : j ∈ b2j x c) :
    j < x.length := by
  unfold b2j at h
  split at h
  · simp at h
  · simpa using (mem_positionsFrom_bounds c x 0 j h).2

theorem mem_b2j_getD (x : List Char) (c : Char) (j : Nat) (h : j ∈ b2j x c) :
    x.getD j ' ' = c := by
  unfold b2j at h
  split at h
  · simp at h
  · simpa using mem_positionsFrom_getD c x 0 j h

theorem mem_b2j_kept (x : List Char) (c : Char) (j : Nat) (h : j ∈ b2j x c) :
    autojunkPopular x (x.getD j ' ') = false := by
  have hg := mem_b2j_getD x c j h
  rw [hg]
  unfold b2j at h
  split at h
  · simp at h
  · rename_i hpop
    simpa using hpop

theorem self_mem_b2j (x : List Char) (i : Nat) (hi : i < x.length)
    (hk : autojunkPopular x (x.getD i ' ') = false) : i ∈ b2j x (x.getD i ' ') := by
  unfold b2j
  rw [if_neg (by rw [hk]; simp)]
  simpa using self_mem_positionsFrom (x.getD i ' ') x 0 i hi rfl

theorem diagRun_le (x : List Char) : ∀ j, diagRun x j ≤ j + 1 := by
  intro j
  induction j with
  | zero => unfold diagRun; split <;> omega
  | succ j ih => unfold diagRun; split <;> omega

theorem diagRun_kept (x : List Char) (j : Nat)
    (h : autojunkPopular x (x.getD j ' ') = false) :
    diagRun x j = (if j = 0 then 0 else diagRun x (j - 1)) + 1 := by
  cases j with
  | zero => simp only [diagRun]; rw [h]; simp
  | succ j' => simp only [diagRun]; rw [h]; simp

theorem diagRun_nkept (x : List Char) (j : Nat)
    (h : autojunkPopular x (x.getD j ' ') = true) : diagRun x j = 0 := by
  cases j with
  | zero => simp only [diagRun]; rw [h]; simp
  | succ j' => simp only [diagRun]; rw [h]; simp

theorem alookup_cons (a b j : Nat) (l : List (Nat × Nat)) :
    alookup ((a, b) :: l) j = if j = a then b else alookup l j := by
  unfold alookup
  rw [List.find?_cons]
  by_cases h : j = a
  · subst h; simp
  · have : (((a, b) : Nat × Nat).1 == j) = false := by
      simp [Ne.symm h]
    rw [this]
    simp [h]

theorem innerLoop_append (i blo bhi : Nat) (old : List (Nat × Nat)) :
    ∀ (l1 l2 : List Nat) (st : FlmState), (∀ j ∈ l1, j < bhi) →
      innerLoop i blo bhi old (l1 ++ l2) st =
        innerLoop i blo bhi old l2 (innerLoop i blo bhi old l1 st) := by
  intro l1
  induction l1 with
  | nil => intro l2 st _; rfl
  | cons j js ih =>
    intro l2 st hb
    have hjb : j < bhi := hb j (List.mem_cons_self _ _)
    by_cases hlt : j < blo
    · simp only [List.cons_append, innerLoop, if_pos hlt]
      exact ih l2 st (fun a ha => hb a (List.mem_cons_of_mem _ ha))
    · simp only [List.cons_append, innerLoop, if_neg hlt, if_neg (not_le.mpr hjb)]
      exact ih l2 _ (fun a ha => hb a (List.mem_cons_of_mem _ ha))

theorem innerPost (x : List Char) (i : Nat) (old : List (Nat × Nat)) :
    ∀ (js : List Nat) (st : FlmState),
      (∀ j ∈ js, i < j ∧ j < x.length) →
      (∀ j ∈ js, autojunkPopular x (x.getD j ' ') = false) →
      (∀ j', alookup old j' + 1 ≤ diagRun x i) →
      (∀ j', alookup old j' ≤ diagRun x j') →
      diagRun x i ≤ st.bestsize →
      alookup st.j2len i = diagRun x i →
      (∀ j', alookup st.j2len j' ≤ diagRun x j') →
      (∀ j', alookup st.j2len j' ≤ diagRun x i) →
      (innerLoop i 0 x.length old js st).besti = st.besti ∧
      (innerLoop i 0 x.length old js st).bestj = st.bestj ∧
      (innerLoop i 0 x.length old js st).bestsize = st.bestsize ∧
      alookup (innerLoop i 0 x.length old js st).j2len i = diagRun x i ∧
      (∀ j', alookup (innerLoop i 0 x.length old js st).j2len j' ≤ diagRun x j') ∧
      (∀ j', alookup (innerLoop i 0 x.length old js st).j2len j' ≤ diagRun x i) := by
  intro js
  induction js with
  | nil => intro st _ _ _ _ hb hd h3 h4; exact ⟨rfl, rfl, rfl, hd, h3, h4⟩
  | cons j js ih =>
    intro st hbound hkept hprev h3old hb hd h3 h4
    obtain ⟨hij, hjn⟩ := hbound j (List.mem_cons_self _ _)
    have hkj := hkept j (List.mem_cons_self _ _)
    have hj0 : j ≠ 0 := by omega
    have hkle_i : (if j = 0 then 0 else alookup old (j - 1)) + 1 ≤ diagRun x i := by
      rw [if_neg hj0]
      exact hprev (j - 1)
    have hkle_j : (if j = 0 then 0 else alookup old (j - 1)) + 1 ≤ diagRun x j := by
      rw [if_neg hj0, diagRun_kept x j hkj, if_neg hj0]
      have := h3old (j - 1)
      omega
    have hnoup : ¬ (st.bestsize < (if j = 0 then 0 else alookup old (j - 1)) + 1) := by
      omega
    have hstep : innerLoop i 0 x.length old (j :: js) st =
        innerLoop i 0 x.length old js
          ⟨(j, (if j = 0 then 0 else alookup old (j - 1)) + 1) :: st.j2len,
            st.besti, st.bestj, st.bestsize⟩ := by
      simp only [innerLoop]
      rw [if_neg (Nat.not_lt_zero j), if_neg (not_le.mpr hjn)]
      rw [if_neg hnoup]
    rw [hstep]
    refine ih _ (fun a ha => hbound a (List.mem_cons_of_mem _ ha))
      (fun a ha => hkept a (List.mem_cons_of_mem _ ha)) hprev h3old hb ?_ ?_ ?_
    · show alookup ((j, _) :: st.j2len) i = diagRun x i
      rw [alookup_cons, if_neg (by omega)]
      exact hd
    · intro j'
      show alookup ((j, _) :: st.j2len) j' ≤ diagRun x j'
      rw [alookup_cons]
      by_cases hjj : j' = j
      · rw [if_pos hjj]; subst hjj; exact hkle_j
      · rw [if_neg hjj]; exact h3 j'
    · intro j'
      show alookup ((j, _) :: st.j2len) j' ≤ diagRun x i
      rw [alookup_cons]
      by_cases hjj : j' = j
      · rw [if_pos hjj]; exact hkle_i
      · rw [if_neg hjj]; exact h4 j'

theorem innerPre (x : List Char) (i : Nat) (old : List (Nat × Nat)) :
    ∀ (js : List Nat) (st : FlmState),
      (∀ j ∈ js, j < i ∧ j < x.length) →
      (∀ j ∈ js, autojunkPopular x (x.getD j ' ') = false) →
      (∀ j', alookup old j' + 1 ≤ diagRun x i) →
      (∀ j', alookup old j' ≤ diagRun x j') →
      (∀ j, j < i → diagRun x j ≤ st.bestsize) →
      (∀ j', alookup st.j2len j' ≤ diagRun x j') →
      (∀ j', alookup st.j2len j' ≤ diagRun x i) →
      (innerLoop i 0 x.length old js st).besti = st.besti ∧
      (innerLoop i 0 x.length old js st).bestj = st.bestj ∧
      (innerLoop i 0 x.length old js st).bestsize = st.bestsize ∧
      (∀ j', alookup (innerLoop i 0 x.length old js st).j2len j' ≤ diagRun x j') ∧
      (∀ j', alookup (innerLoop i 0 x.length old js st).j2len j' ≤ diagRun x i) := by
  intro js
  induction js with
  | nil => intro st _ _ _ _ _ h3 h4; exact ⟨rfl, rfl, rfl, h3, h4⟩
  | cons j js ih =>
    intro st hbound hkept hprev h3old h4best h3 h4
    obtain ⟨hji, hjn⟩ := hbound j (List.mem_cons_self _ _)
    have hkj := hkept j (List.mem_cons_self _ _)
    have hkle_j : (if j = 0 then 0 else alookup old (j - 1)) + 1 ≤ diagRun x j := by
      rw [diagRun_kept x j hkj]
      by_cases hj0 : j = 0
      · rw [if_pos hj0, if_pos hj0]
      · rw [if_neg hj0, if_neg hj0]
        have := h3old (j - 1)
        omega
    have hkle_i : (if j = 0 then 0 else alookup old (j - 1)) + 1 ≤ diagRun x i := by
      by_cases hj0 : j = 0
      · rw [if_pos hj0]
        have := hprev 0
        omega
      · rw [if_neg hj0]
        exact hprev (j - 1)
    have hnoup : ¬ (st.bestsize < (if j = 0 then 0 else alookup old (j - 1)) + 1) := by
      have := h4best j hji
      omega
    have hstep : innerLoop i 0 x.length old (j :: js) st =
        innerLoop i 0 x.length old js
          ⟨(j, (if j = 0 then 0 else alookup old (j - 1)) + 1) :: st.j2len,
            st.besti, st.bestj, st.bestsize⟩ := by
      simp only [innerLoop]
      rw [if_neg (Nat.not_lt_zero j), if_neg (not_le.mpr hjn)]
      rw [if_neg hnoup]
    rw [hstep]
    refine ih _ (fun a ha => hbound a (List.mem_cons_of_mem _ ha))
      (fun a ha => hkept a (List.mem_cons_of_mem _ ha)) hprev h3old h4best ?_ ?_
    · intro j'
      show alookup ((j, _) :: st.j2len) j' ≤ diagRun x j'
      rw [alookup_cons]
      by_cases hjj : j' = j
      · rw [if_pos hjj]; subst hjj; exact hkle_j
      · rw [if_neg hjj]; exact h3 j'
    · intro j'
      show alookup ((j, _) :: st.j2len) j' ≤ diagRun x i
      rw [alookup_cons]
      by_cases hjj : j' = j
      · rw [if_pos hjj]; exact hkle_i
      · rw [if_neg hjj]; exact h4 j'

theorem outerStep (x : List Char) (i : Nat) (hi : i < x.length) (st : FlmState)
    (hinv : OuterInv x i st) :
    OuterInv x (i + 1) (innerLoop i 0 x.length st.j2len (b2j x (x.getD i ' '))
      ⟨[], st.besti, st.bestj, st.bestsize⟩) := by
  obtain ⟨hdiag, hsum, h3, hrow, hdp, h4⟩ := hinv
  by_cases hkept : autojunkPopular x (x.getD i ' ') = true
  · have hempty : b2j x (x.getD i ' ') = [] := by unfold b2j; rw [if_pos hkept]
    rw [hempty]
    refine ⟨hdiag, hsum, ?_, ?_, ?_, ?_⟩
    · intro j'
      show alookup ([] : List (Nat × Nat)) j' ≤ diagRun x j'
      show (0 : Nat) ≤ diagRun x j'
      omega
    · intro j'
      show (0 : Nat) ≤ if i + 1 = 0 then 0 else diagRun x (i + 1 - 1)
      omega
    · intro _
      show (0 : Nat) = diagRun x (i + 1 - 1)
      rw [Nat.add_sub_cancel]
      exact (diagRun_nkept x i hkept).symm
    · intro j hj
      show diagRun x j ≤ st.bestsize
      rcases Nat.lt_succ_iff_lt_or_eq.mp hj with hji | rfl
      · exact h4 j hji
      · rw [diagRun_nkept x j hkept]; omega
  · have hkept' : autojunkPopular x (x.getD i ' ') = false := by
      simpa using hkept
    have hprev' : ∀ j', alookup st.j2len j' + 1 ≤ diagRun x i := by
      intro j'
      rw [diagRun_kept x i hkept']
      have := hrow j'
      by_cases hi0 : i = 0
      · rw [if_pos hi0] at this ⊢; omega
      · rw [if_neg hi0] at this ⊢; omega
    set A := (if i = 0 then 0 else alookup st.j2len (i - 1)) + 1 with hA
    have hki : A = diagRun x i := by
      rw [hA, diagRun_kept x i hkept']
      by_cases hi0 : i = 0
      · rw [if_pos hi0, if_pos hi0]
      · rw [if_neg hi0, if_neg hi0, hdp (by omega)]
    have hAle : A ≤ i + 1 := by rw [hki]; exact diagRun_le x i
    have hmem : i ∈ b2j x (x.getD i ' ') := self_mem_b2j x i hi hkept'
    obtain ⟨pre, post, hsplit⟩ := List.append_of_mem hmem
    have hsorted : (b2j x (x.getD i ' ')).Pairwise (· < ·) := by
      unfold b2j
      rw [if_neg (by rw [hkept']; simp)]
      exact positionsFrom_sorted _ x 0
    have hbounds : ∀ j ∈ b2j x (x.getD i ' '), j < x.length :=
      fun j hj => mem_b2j_lt x _ j hj
    have hkeptall : ∀ j ∈ b2j x (x.getD i ' '), autojunkPopular x (x.getD j ' ') = false :=
      fun j hj => mem_b2j_kept x _ j hj
    rw [hsplit] at hsorted hbounds hkeptall ⊢
    have hpre_lt : ∀ j ∈ pre, j < i := by
      intro j hj
      exact (List.pairwise_append.mp hsorted).2.2 j hj i (List.mem_cons_self _ _)
    have hpost_gt : ∀ j ∈ post, i < j := by
      intro j hj
      exact (List.pairwise_cons.mp (List.pairwise_append.mp hsorted).2.1).1 j hj
    rw [innerLoop_append i 0 x.length st.j2len pre (i :: post) _
      (fun j hj => hbounds j (List.mem_append.mpr (Or.inl hj)))]
    have hpre := innerPre x i st.j2len pre ⟨[], st.besti, st.bestj, st.bestsize⟩
      (fun j hj => ⟨hpre_lt j hj, hbounds j (List.mem_append.mpr (Or.inl hj))⟩)
      (fun j hj => hkeptall j (List.mem_append.mpr (Or.inl hj)))
      hprev' h3 (fun j hj => h4 j hj)
      (fun j' => by show (0 : Nat) ≤ diagRun x j'; omega)
      (fun j' => by show (0 : Nat) ≤ diagRun x i; omega)
    set st1 := innerLoop i 0 x.length st.j2len pre ⟨[], st.besti, st.bestj, st.bestsize⟩
      with hst1
    obtain ⟨e1, e2, e3, a3, a4⟩ := hpre
    have e1' : st1.besti = st.besti := e1
    have e2' : st1.bestj = st.bestj := e2
    have e3' : st1.bestsize = st.bestsize := e3
    by_cases hup : st1.bestsize < A
    · have hstep : innerLoop i 0 x.length st.j2len (i :: post) st1 =
          innerLoop i 0 x.length st.j2len post
            ⟨(i, A) :: st1.j2len, i + 1 - A, i + 1 - A, A⟩ := by
        simp only [innerLoop]
        rw [if_neg (Nat.not_lt_zero i), if_neg (not_le.mpr hi)]
        rw [hA] at hup
        rw [if_pos hup]
      rw [hstep]
      have hpost := innerPost x i st.j2len post
        ⟨(i, A) :: st1.j2len, i + 1 - A, i + 1 - A, A⟩
        (fun j hj => ⟨hpost_gt j hj,
          hbounds j (List.mem_append.mpr (Or.inr (List.mem_cons_of_mem _ hj)))⟩)
        (fun j hj => hkeptall j (List.mem_append.mpr (Or.inr (List.mem_cons_of_mem _ hj))))
        hprev' h3 (by show diagRun x i ≤ A; rw [hki])
        (by show alookup ((i, A) :: st1.j2len) i = diagRun x i
            rw [alookup_cons, if_pos rfl]; exact hki)
        (by intro j'
            show alookup ((i, A) :: st1.j2len) j' ≤ diagRun x j'
            rw [alookup_cons]
            by_cases hji : j' = i
            · rw [if_pos hji, hji, hki]
            · rw [if_neg hji]; exact a3 j')
        (by intro j'
            show alookup ((i, A) :: st1.j2len) j' ≤ diagRun x i
            rw [alookup_cons]
            by_cases hji : j' = i
            · rw [if_pos hji, hki]
            · rw [if_neg hji]; exact a4 j')
      obtain ⟨f1, f2, f3, fd, f5, f6⟩ := hpost
      have f1' : _ = i + 1 - A := f1
      have f2' : _ = i + 1 - A := f2
      have f3' : _ = A := f3
      refine ⟨by rw [f1', f2'], ?_, f5, ?_, ?_, ?_⟩
      · rw [f1', f3']
        omega
      · intro j'
        rw [if_neg (Nat.succ_ne_zero i), Nat.add_sub_cancel]
        exact f6 j'
      · intro _
        rw [Nat.add_sub_cancel]
        exact fd
      · intro j hj
        rw [f3']
        rcases Nat.lt_succ_iff_lt_or_eq.mp hj with hji | rfl
        · have h1 := h4 j hji
          have hup' : st.bestsize < A := by rw [← e3']; exact hup
          omega
        · rw [hki]
    · have hstep : innerLoop i 0 x.length st.j2len (i :: post) st1 =
          innerLoop i 0 x.length st.j2len post
            ⟨(i, A) :: st1.j2len, st1.besti, st1.bestj, st1.bestsize⟩ := by
        simp only [innerLoop]
        rw [if_neg (Nat.not_lt_zero i), if_neg (not_le.mpr hi)]
        rw [hA] at hup
        rw [if_neg hup]
      rw [hstep]
      have hble : diagRun x i ≤ st1.bestsize := by rw [← hki]; omega
      have hpost := innerPost x i st.j2len post
        ⟨(i, A) :: st1.j2len, st1.besti, st1.bestj, st1.bestsize⟩
        (fun j hj => ⟨hpost_gt j hj,
          hbounds j (List.mem_append.mpr (Or.inr (List.mem_cons_of_mem _ hj)))⟩)
        (fun j hj => hkeptall j (List.mem_append.mpr (Or.inr (List.mem_cons_of_mem _ hj))))
        hprev' h3 hble
        (by show alookup ((i, A) :: st1.j2len) i = diagRun x i
            rw [alookup_cons, if_pos rfl]; exact hki)
        (by intro j'
            show alookup ((i, A) :: st1.j2len) j' ≤ diagRun x j'
            rw [alookup_cons]
            by_cases hji : j' = i
            · rw [if_pos hji, hji, hki]
            · rw [if_neg hji]; exact a3 j')
        (by intro j'
            show alookup ((i, A) :: st1.j2len) j' ≤ diagRun x i
            rw [alookup_cons]
            by_cases hji : j' = i
            · rw [if_pos hji, hki]
            · rw [if_neg hji]; exact a4 j')
      obtain ⟨f1, f2, f3, fd, f5, f6⟩ := hpost
      have f1' : _ = st1.besti := f1
      have f2' : _ = st1.bestj := f2
      have f3' : _ = st1.bestsize := f3
      refine ⟨?_, ?_, f5, ?_, ?_, ?_⟩
      · rw [f1', f2', e1', e2', hdiag]
      · rw [f1', f3', e1', e3']
        exact hsum
      · intro j'
        rw [if_neg (Nat.succ_ne_zero i), Nat.add_sub_cancel]
        exact f6 j'
      · intro _
        rw [Nat.add_sub_cancel]
        exact fd
      · intro j hj
        rw [f3', e3']
        rcases Nat.lt_succ_iff_lt_or_eq.mp hj with hji | rfl
        · exact h4 j hji
        · have hup' : ¬ st.bestsize < A := by rw [← e3']; exact hup
          omega

theorem outerLoopInv (x : List Char) :
    ∀ (m r : Nat) (st : FlmState), OuterInv x r st → r + m ≤ x.length →
      OuterInv x (r + m) (outerLoop x x 0 x.length (List.range' r m) st) := by
  intro m
  induction m with
  | zero => intro r st hinv _; simpa using hinv
  | succ m ih =>
    intro r st hinv hle
    have hr : r < x.length := by omega
    have hstep := outerStep x r hr st hinv
    have : outerLoop x x 0 x.length (List.range' r (m + 1)) st =
        outerLoop x x 0 x.length (List.range' (r + 1) m)
          (innerLoop r 0 x.length st.j2len (b2j x (x.getD r ' '))
            ⟨[], st.besti, st.bestj, st.bestsize⟩) := by
      rw [List.range'_succ]
      rfl
    rw [this]
    have := ih (r + 1) _ hstep (by omega)
    have harith : r + 1 + m = r + (m + 1) := by omega
    rw [harith] at this
    exact this

theorem charEq_self (x : List Char) (q : Nat) (h : q < x.length) :
    charEq? x x q q = true := by
  unfold charEq?
  rw [List.get?_eq_get h]
  simp

theorem extendLeft_diag (x : List Char) :
    ∀ (fuel p s : Nat), p ≤ fuel → p + s ≤ x.length →
      extendLeft x x 0 0 fuel p p s = (0, 0, s + p) := by
  intro fuel
  induction fuel with
  | zero =>
    intro p s hp _
    have : p = 0 := by omega
    subst this
    rfl
  | succ fuel ih =>
    intro p s hp hsum
    cases p with
    | zero =>
      show extendLeft x x 0 0 (fuel + 1) 0 0 s = (0, 0, s + 0)
      unfold extendLeft
      rw [if_neg (by simp)]
      simp
    | succ p' =>
      unfold extendLeft
      rw [if_pos]
      · have harith : s + 1 + p' = s + (p' + 1) := by omega
        have := ih p' (s + 1) (by omega) (by omega)
        simp only [Nat.add_sub_cancel]
        rw [this, harith]
      · simp only [Bool.and_eq_true, decide_eq_true_eq]
        refine ⟨⟨by omega, by omega⟩, ?_⟩
        simp only [Nat.add_sub_cancel]
        exact charEq_self x p' (by omega)

theorem extendRight_diag (x : List Char) :
    ∀ (fuel s : Nat), x.length ≤ s + fuel → s ≤ x.length →
      extendRight x x x.length x.length fuel 0 0 s = (0, 0, x.length) := by
  intro fuel
  induction fuel with
  | zero =>
    intro s h1 h2
    have : s = x.length := by omega
    subst this
    rfl
  | succ fuel ih =>
    intro s h1 h2
    by_cases hs : s < x.length
    · unfold extendRight
      rw [if_pos]
      · exact ih (s + 1) (by omega) (by omega)
      · simp only [Bool.and_eq_true, decide_eq_true_eq, Nat.zero_add]
        exact ⟨⟨hs, hs⟩, charEq_self x s hs⟩
    · have : s = x.length := by omega
      subst this
      unfold extendRight
      rw [if_neg (by simp)]

theorem flm_self (x : List Char) :
    find_longest_match x x 0 x.length 0 x.length = (0, 0, x.length) := by
  unfold find_longest_match
  simp only [Nat.sub_zero]
  have hinv := outerLoopInv x x.length 0 ⟨[], 0, 0, 0⟩
    ⟨rfl, by simp, fun j' => by show (0:Nat) ≤ _; omega,
      fun j' => by show (0:Nat) ≤ _; omega, fun h => absurd h (by omega),
      fun j hj => absurd hj (by omega)⟩ (by omega)
  rw [Nat.zero_add] at hinv
  set st := outerLoop x x 0 x.length (List.range' 0 x.length) ⟨[], 0, 0, 0⟩ with hst
  obtain ⟨hdiag, hsum, -, -, -, -⟩ := hinv
  rw [← hdiag]
  rw [extendLeft_diag x st.besti st.besti st.bestsize (le_refl _) (by omega)]
  exact extendRight_diag x x.length (st.bestsize + st.besti) (by omega) (by omega)

theorem smMatches_self (x : List Char) : smMatches x x = x.length := by
  unfold smMatches
  show matchTotal x x (x.length + x.length + 1) 0 x.length 0 x.length = x.length
  simp only [matchTotal, flm_self]
  cases hn : x.length with
  | zero => simp
  | succ m =>
    rw [if_neg (Nat.succ_ne_zero m)]
    rw [if_neg (by simp), if_neg (by simp)]

/-- Claim C3: the similarity of any string with itself is 1.0: identical
strings always produce the full-length diagonal match (the DP best is always
diagonal, and the extension loops stretch it across the whole window even
when autojunk has purged popular characters), and two empty strings give
ratio 1.0 by the `T = 0` rule. -/
theorem C3_theorem :
    (∀ x : String, x ≠ "" → name_similarity x x = 1) ∧
    name_similarity "" "" = 1 := by
  have main : ∀ x : String, name_similarity x x = 1 := by
    intro x
    unfold name_similarity smRatio
    rw [smMatches_self]
    by_cases h : x.data.length + x.data.length = 0
    · show (if x.data.length + x.data.length = 0 then (1:ℚ) else _) = 1
      rw [if_pos h]
    · show (if x.data.length + x.data.length = 0 then (1:ℚ) else
        (2 * x.data.length : ℚ) / (x.data.length + x.data.length : Nat)) = 1
      rw [if_neg h]
      have hL : x.data.length ≠ 0 := by omega
      have hq : ((x.data.length + x.data.length : Nat) : ℚ) ≠ 0 := by
        exact_mod_cast by omega
      rw [div_eq_one_iff_eq hq]
      push_cast
      ring
  exact ⟨fun x _ => main x, main ""⟩

/-- Claim C3 witness: a concrete non-empty string has self-similarity 1. -/
theorem C3_witness : name_similarity "abc" "abc" = 1 :=
  C3_theorem.1 "abc" (by decide)

/-! ## Idempotence of `normalize_event_name` (claim C7)

The proof shows that every character `normalize_event_name` can emit is a
fixed point of the NFKC and lowercasing maps and is not a corner bracket,
and that the emitted character list is already whitespace-collapsed and
stripped, so a second pass changes nothing.
-/

/-- Every character an `nfkcTable` entry emits is NFKC-stable. -/
theorem nfkcTable_outputs : ∀ p ∈ nfkcTable, ∀ d ∈ p.2, nfkcChar d = [d] := by
  decide

/-- Every character a `lowerTable` entry emits is NFKC-stable, lowercase-stable,
not whitespace, and not a corner bracket. -/
theorem lowerTable_outputs : ∀ p ∈ lowerTable, ∀ d ∈ p.2,
    nfkcChar d = [d] ∧ lowerChar d = [d] ∧ isPyWs d = false ∧
    d ≠ '「' ∧ d ≠ '」' := by
  decide

/-- No `lowerTable` entry emits the empty string. -/
theorem lowerTable_nonempty : ∀ p ∈ lowerTable, p.2 ≠ [] := by decide

/-- The characters of `nfkcChar c` are themselves NFKC-stable. -/
theorem nfkc_out_stable (c : Char) : ∀ d ∈ nfkcChar c, nfkcChar d = [d] := by
  intro d hd
  unfold nfkcChar at hd
  cases hfind : nfkcTable.find? (fun p => p.1 == c) with
  | some p =>
    rw [hfind] at hd
    exact nfkcTable_outputs p (List.mem_of_find?_eq_some hfind) d hd
  | none =>
    rw [hfind] at hd
    simp only [List.mem_singleton] at hd
    subst hd
    unfold nfkcChar
    rw [hfind]

/-- The characters of `lowerChar c` (for an NFKC-stable, non-bracket `c`) are
NFKC-stable, lowercase-stable and not corner brackets. -/
theorem lower_out_stable (c : Char) (hstab : nfkcChar c = [c])
    (hb1 : c ≠ '「') (hb2 : c ≠ '」') :
    ∀ d ∈ lowerChar c, nfkcChar d = [d] ∧ lowerChar d = [d] ∧
      d ≠ '「' ∧ d ≠ '」' := by
  intro d hd
  unfold lowerChar at hd
  cases hfind : lowerTable.find? (fun p => p.1 == c) with
  | some p =>
    rw [hfind] at hd
    have h := lowerTable_outputs p (List.mem_of_find?_eq_some hfind) d hd
    exact ⟨h.1, h.2.1, h.2.2.2.1, h.2.2.2.2⟩
  | none =>
    rw [hfind] at hd
    simp only [List.mem_singleton] at hd
    subst hd
    refine ⟨hstab, ?_, hb1, hb2⟩
    unfold lowerChar
    rw [hfind]

/-- On a non-whitespace character, `lowerChar` is nonempty and emits only
non-whitespace characters. -/
theorem lowerChar_nonws (c : Char) (h : isPyWs c = false) :
    lowerChar c ≠ [] ∧ ∀ d ∈ lowerChar c, isPyWs d = false := by
  unfold lowerChar
  cases hfind : lowerTable.find? (fun p => p.1 == c) with
  | some p =>
    have hmem := List.mem_of_find?_eq_some hfind
    exact ⟨lowerTable_nonempty p hmem,
      fun d hd => (lowerTable_outputs p hmem d hd).2.2.1⟩
  | none =>
    refine ⟨by simp, fun d hd => ?_⟩
    simp only [List.mem_singleton] at hd
    subst hd
    exact h

/-- The bracket-replacement map sends an NFKC-stable character to an
NFKC-stable non-bracket character. -/
theorem replace_out_stable (c : Char) (hc : nfkcChar c = [c]) :
    nfkcChar (if c = '「' ∨ c = '」' then '"' else c) =
      [if c = '「' ∨ c = '」' then '"' else c] ∧
    (if c = '「' ∨ c = '」' then '"' else c) ≠ '「' ∧
    (if c = '「' ∨ c = '」' then '"' else c) ≠ '」' := by
  by_cases h : c = '「' ∨ c = '」'
  · rw [if_pos h]
    refine ⟨by decide, by decide, by decide⟩
  · rw [if_neg h]
    push_neg at h
    exact ⟨hc, h.1, h.2⟩

/-- Characters of `collapseAux` output: a space, or a character of the input. -/
theorem collapseAux_chars : ∀ (b : Bool) (l : List Char),
    ∀ d ∈ collapseAux b l, d = ' ' ∨ d ∈ l := by
  intro b l
  induction l generalizing b with
  | nil => intro d hd; exact absurd hd (by simp [collapseAux])
  | cons c cs ih =>
    intro d hd
    simp only [collapseAux] at hd
    by_cases hws : isPyWs c
    · rw [if_pos hws] at hd
      by_cases hb : b
      · rw [if_pos hb] at hd
        rcases ih true d hd with h | h
        · exact Or.inl h
        · exact Or.inr (List.mem_cons_of_mem _ h)
      · rw [if_neg hb] at hd
        rcases List.mem_cons.mp hd with h | h
        · exact Or.inl h
        · rcases ih true d h with h2 | h2
          · exact Or.inl h2
          · exact Or.inr (List.mem_cons_of_mem _ h2)
    · rw [if_neg hws] at hd
      rcases List.mem_cons.mp hd with h | h
      · exact Or.inr (h ▸ List.mem_cons_self _ _)
      · rcases ih false d h with h2 | h2
        · exact Or.inl h2
        · exact Or.inr (List.mem_cons_of_mem _ h2)

/-- `rstripWs` only keeps characters of the input. -/
theorem rstripWs_subset : ∀ l : List Char, ∀ d ∈ rstripWs l, d ∈ l := by
  intro l
  induction l with
  | nil => intro d hd; exact absurd hd (by simp [rstripWs])
  | cons c cs ih =>
    intro d hd
    simp only [rstripWs] at hd
    cases hr : rstripWs cs with
    | nil =>
      rw [hr] at hd
      by_cases hws : isPyWs c
      · rw [if_pos hws] at hd; exact absurd hd (by simp)
      · rw [if_neg hws] at hd
        simp only [List.mem_singleton] at hd
        exact hd ▸ List.mem_cons_self _ _
    | cons r rs =>
      rw [hr] at hd
      rcases List.mem_cons.mp hd with h | h
      · exact h ▸ List.mem_cons_self _ _
      · exact List.mem_cons_of_mem _ (ih d (hr ▸ h))

/-- `pyStrip` only keeps characters of the input. -/
theorem pyStrip_subset (l : List Char) : ∀ d ∈ pyStrip l, d ∈ l := by
  intro d hd
  exact (List.dropWhile_sublist _).subset (rstripWs_subset _ d hd)

/-- The output of the whitespace-collapsing pass satisfies `innerOk`: every
whitespace character is a single space and no two are adjacent. -/
theorem collapseAux_innerOk : ∀ (l : List Char) (b : Bool),
    innerOk b (collapseAux b l) = true := by
  intro l
  induction l with
  | nil => intro b; rfl
  | cons c cs ih =>
    intro b
    simp only [collapseAux]
    by_cases hws : isPyWs c
    · rw [if_pos hws]
      by_cases hb : b
      · rw [if_pos hb, hb]
        exact ih true
      · rw [if_neg hb]
        simp only [Bool.not_eq_true] at hb
        subst hb
        simp only [innerOk, if_pos (show isPyWs ' ' = true by decide)]
        simp [ih true]
    · rw [if_neg hws]
      simp only [innerOk, if_neg hws]
      exact ih false

/-- A list passing `innerOk true` has no leading whitespace, so left-stripping
keeps it unchanged. -/
theorem lstripWs_of_innerOk (l : List Char) (h : innerOk true l = true) :
    lstripWs l = l := by
  cases l with
  | nil => rfl
  | cons c cs =>
    simp only [innerOk] at h
    by_cases hws : isPyWs c
    · rw [if_pos hws] at h
      simp at h
    · show (c :: cs).dropWhile isPyWs = c :: cs
      rw [List.dropWhile_cons, if_neg (by simp [hws])]

/-- Left-stripping an `innerOk false` list yields an `innerOk true` list. -/
theorem lstrip_innerOk (l : List Char) (h : innerOk false l = true) :
    innerOk true (lstripWs l) = true := by
  cases l with
  | nil => rfl
  | cons c cs =>
    simp only [innerOk] at h
    by_cases hws : isPyWs c
    · rw [if_pos hws] at h
      simp only [Bool.and_assoc, Bool.and_eq_true, beq_iff_eq,
        Bool.not_false, Bool.true_and] at h
      obtain ⟨hc, htail⟩ := h
      show innerOk true ((c :: cs).dropWhile isPyWs) = true
      rw [List.dropWhile_cons, if_pos (by simp [hws])]
      have hcs : cs.dropWhile isPyWs = cs := lstripWs_of_innerOk cs htail
      rw [hcs]
      exact htail
    · rw [if_neg hws] at h
      show innerOk true ((c :: cs).dropWhile isPyWs) = true
      rw [List.dropWhile_cons, if_neg (by simp [hws])]
      simp only [innerOk, if_neg hws]
      exact h

/-- Right-stripping an `innerOk` list gives the empty list or a fully
collapsed list with the same flag. -/
theorem rstrip_collapsed : ∀ (l : List Char) (b : Bool), innerOk b l = true →
    rstripWs l = [] ∨ collapsedAux b (rstripWs l) = true := by
  intro l
  induction l with
  | nil => intro b _; exact Or.inl rfl
  | cons c cs ih =>
    intro b h
    simp only [innerOk] at h
    simp only [rstripWs]
    by_cases hws : isPyWs c
    · rw [if_pos hws] at h
      simp only [Bool.and_assoc, Bool.and_eq_true, beq_iff_eq,
        Bool.not_eq_true', Bool.and_eq_true] at h
      obtain ⟨hc, hb, htail⟩ := h
      subst hb
      rcases ih true htail with hnil | hcol
      · rw [hnil, if_pos hws]
        exact Or.inl rfl
      · cases hr : rstripWs cs with
        | nil => rw [hr] at hcol; simp [collapsedAux] at hcol
        | cons r rs =>
          rw [hr] at hcol
          right
          show (if isPyWs c = true then
              ((c == ' ') && !false && collapsedAux true (r :: rs))
            else collapsedAux false (r :: rs)) = true
          rw [if_pos hws, hc, hcol]
          rfl
    · rw [if_neg hws] at h
      rcases ih false h with hnil | hcol
      · rw [hnil, if_neg hws]
        right
        simp [collapsedAux, hws]
      · cases hr : rstripWs cs with
        | nil =>
          rw [hr] at hcol
          rw [if_neg hws]
          right
          simp [collapsedAux, hws]
        | cons r rs =>
          rw [hr] at hcol
          right
          simp only [collapsedAux, if_neg hws]
          exact hcol

/-- A fully collapsed list is a fixed point of the collapsing pass. -/
theorem collapseAux_of_collapsed : ∀ (l : List Char) (b : Bool),
    collapsedAux b l = true → collapseAux b l = l := by
  intro l
  induction l with
  | nil => intro b _; rfl
  | cons c cs ih =>
    intro b h
    simp only [collapsedAux] at h
    simp only [collapseAux]
    by_cases hws : isPyWs c
    · rw [if_pos hws] at h
      simp only [Bool.and_assoc, Bool.and_eq_true, beq_iff_eq,
        Bool.not_eq_true'] at h
      obtain ⟨hc, hb, htail⟩ := h
      subst hb
      rw [if_pos hws, if_neg (by simp), ih true htail, hc]
    · rw [if_neg hws] at h
      rw [if_neg hws, ih false h]

/-- A fully collapsed list has no leading whitespace. -/
theorem lstripWs_of_collapsed (l : List Char) (h : collapsedAux true l = true) :
    lstripWs l = l := by
  cases l with
  | nil => rfl
  | cons c cs =>
    simp only [collapsedAux] at h
    by_cases hws : isPyWs c
    · rw [if_pos hws] at h; simp at h
    · show (c :: cs).dropWhile isPyWs = c :: cs
      rw [List.dropWhile_cons, if_neg (by simp [hws])]

/-- A fully collapsed list has no trailing whitespace. -/
theorem rstripWs_of_collapsed : ∀ (l : List Char) (b : Bool),
    collapsedAux b l = true → rstripWs l = l := by
  intro l
  induction l with
  | nil => intro b _; rfl
  | cons c cs ih =>
    intro b h
    simp only [collapsedAux] at h
    simp only [rstripWs]
    by_cases hws : isPyWs c
    · rw [if_pos hws] at h
      simp only [Bool.and_assoc, Bool.and_eq_true, beq_iff_eq,
        Bool.not_eq_true'] at h
      obtain ⟨hc, hb, htail⟩ := h
      subst hb
      rw [ih true htail]
      cases cs with
      | nil => simp [collapsedAux] at htail
      | cons c2 cs2 => rfl
    · rw [if_neg hws] at h
      rw [ih false h]
      cases hcs : cs with
      | nil => rw [if_neg hws]
      | cons c2 cs2 => rfl

/-- Prepending a nonempty run of non-whitespace characters resets the
collapsing flag to `false`. -/
theorem collapsedAux_append_nonws : ∀ (m : List Char),
    (∀ d ∈ m, isPyWs d = false) → m ≠ [] → ∀ (b : Bool) (t : List Char),
    collapsedAux b (m ++ t) = collapsedAux false t := by
  intro m
  induction m with
  | nil => intro _ hne; exact absurd rfl hne
  | cons c cs ih =>
    intro hm _ b t
    have hc : isPyWs c = false := hm c (List.mem_cons_self _ _)
    show (if isPyWs c = true then ((c == ' ') && !b && collapsedAux true (cs ++ t))
      else collapsedAux false (cs ++ t)) = collapsedAux false t
    rw [if_neg (by simp [hc])]
    cases cs with
    | nil => rfl
    | cons c2 cs2 =>
      exact ih (fun d hd => hm d (List.mem_cons_of_mem _ hd)) (by simp) false t

/-- Mapping a character-to-string function that fixes the space and sends
non-whitespace to nonempty non-whitespace preserves collapsedness. -/
theorem collapsedAux_flatMap (f : Char → List Char) (hsp : f ' ' = [' '])
    (hnw : ∀ c, isPyWs c = false → f c ≠ [] ∧ ∀ d ∈ f c, isPyWs d = false) :
    ∀ (l : List Char) (b : Bool), collapsedAux b l = true →
    collapsedAux b (l.flatMap f) = true := by
  intro l
  induction l with
  | nil => intro b h; simpa using h
  | cons c cs ih =>
    intro b h
    simp only [collapsedAux] at h
    by_cases hws : isPyWs c
    · rw [if_pos hws] at h
      simp only [Bool.and_assoc, Bool.and_eq_true, beq_iff_eq,
        Bool.not_eq_true'] at h
      obtain ⟨hc, hb, htail⟩ := h
      subst hb
      subst hc
      rw [List.flatMap_cons, hsp]
      show (if isPyWs ' ' = true then
          ((' ' == ' ') && !false && collapsedAux true (cs.flatMap f))
        else collapsedAux false (cs.flatMap f)) = true
      rw [if_pos (by decide), ih true htail]
      rfl
    · rw [if_neg hws] at h
      have hcf : isPyWs c = false := by simpa using hws
      obtain ⟨hne, hall⟩ := hnw c hcf
      rw [List.flatMap_cons, collapsedAux_append_nonws (f c) hall hne b _]
      exact ih false h

/-- The flag `false` is weaker than `true` for `collapsedAux`. -/
theorem collapsedAux_false_of_true : ∀ l : List Char,
    collapsedAux true l = true → collapsedAux false l = true := by
  intro l h
  cases l with
  | nil => rfl
  | cons c cs =>
    simp only [collapsedAux] at h ⊢
    by_cases hws : isPyWs c
    · rw [if_pos hws] at h; simp at h
    · rw [if_neg hws] at h; rw [if_neg hws]; exact h

/-- A `flatMap` whose function fixes every input character is the identity. -/
theorem flatMap_id_of : ∀ (l : List Char) (f : Char → List Char),
    (∀ c ∈ l, f c = [c]) → l.flatMap f = l := by
  intro l f
  induction l with
  | nil => intro _; rfl
  | cons c cs ih =>
    intro h
    rw [List.flatMap_cons, h c (List.mem_cons_self _ _),
      ih (fun d hd => h d (List.mem_cons_of_mem _ hd))]
    rfl

/-- A `map` whose function fixes every input character is the identity. -/
theorem map_id_of : ∀ (l : List Char) (f : Char → Char),
    (∀ c ∈ l, f c = c) → l.map f = l := by
  intro l f
  induction l with
  | nil => intro _; rfl
  | cons c cs ih =>
    intro h
    rw [List.map_cons, h c (List.mem_cons_self _ _),
      ih (fun d hd => h d (List.mem_cons_of_mem _ hd))]

/-- The collapse-and-strip pass always produces a collapsed list. -/
theorem collapseWs_collapsed (s : String) : IsCollapsedL (collapseWs s).data := by
  have h0 : innerOk false (collapseRuns s.data) = true := collapseAux_innerOk s.data false
  have h1 : innerOk true (lstripWs (collapseRuns s.data)) = true := lstrip_innerOk _ h0
  rcases rstrip_collapsed _ true h1 with hnil | hcol
  · exact Or.inl hnil
  · exact Or.inr hcol

/-- Lowercasing preserves collapsedness. -/
theorem lowerStr_collapsed (z : String) (h : IsCollapsedL z.data) :
    IsCollapsedL (lowerStr z).data := by
  rcases h with hnil | hcol
  · left
    show z.data.flatMap lowerChar = []
    rw [hnil]
    rfl
  · right
    show collapsedAux true (z.data.flatMap lowerChar) = true
    exact collapsedAux_flatMap lowerChar (by decide) lowerChar_nonws z.data true hcol

/-- The collapse-and-strip pass fixes every already collapsed string. -/
theorem collapseWs_of_collapsed (y : String) (h : IsCollapsedL y.data) :
    collapseWs y = y := by
  rcases h with hnil | hcol
  · have hdata : pyStrip (collapseRuns y.data) = y.data := by rw [hnil]; rfl
    show String.mk (pyStrip (collapseRuns y.data)) = y
    rw [hdata]
  · have hfalse := collapsedAux_false_of_true y.data hcol
    have h1 : collapseRuns y.data = y.data := collapseAux_of_collapsed y.data false hfalse
    have h2 : lstripWs y.data = y.data := lstripWs_of_collapsed y.data hcol
    have h3 : rstripWs y.data = y.data := rstripWs_of_collapsed y.data true hcol
    show String.mk (rstripWs (lstripWs (collapseRuns y.data))) = y
    rw [h1, h2, h3]

/-- Every character emitted by `normalize_event_name` is NFKC-stable,
lowercase-stable, and not a corner bracket; and the emitted list is
collapsed. -/
theorem normalize_chars_ok (x : String) :
    (∀ c ∈ (normalize_event_name x).data,
      nfkcChar c = [c] ∧ lowerChar c = [c] ∧ c ≠ '「' ∧ c ≠ '」') ∧
    IsCollapsedL (normalize_event_name x).data := by
  constructor
  · intro c hc
    have hc' : c ∈ ((collapseWs (replaceBrackets (nfkcStr x))).data).flatMap lowerChar := hc
    obtain ⟨cz, hcz, hcout⟩ := List.mem_flatMap.mp hc'
    have hcz2 : cz ∈ collapseRuns ((replaceBrackets (nfkcStr x)).data) :=
      pyStrip_subset _ cz hcz
    have hczw : cz = ' ' ∨ cz ∈ (replaceBrackets (nfkcStr x)).data :=
      collapseAux_chars false _ cz hcz2
    have hstab : nfkcChar cz = [cz] ∧ cz ≠ '「' ∧ cz ≠ '」' := by
      rcases hczw with h | h
      · subst h; exact ⟨by decide, by decide, by decide⟩
      · obtain ⟨c0, hc0, hec⟩ := List.mem_map.mp h
        obtain ⟨c1, hc1, hc0in⟩ := List.mem_flatMap.mp hc0
        have hstab0 : nfkcChar c0 = [c0] := nfkc_out_stable c1 c0 hc0in
        have hout := replace_out_stable c0 hstab0
        have hec' : (if c0 = '「' ∨ c0 = '」' then '"' else c0) = cz := hec
        rw [hec'] at hout
        exact hout
    exact lower_out_stable cz hstab.1 hstab.2.1 hstab.2.2 c hcout
  · exact lowerStr_collapsed _ (collapseWs_collapsed _)

/-- Claim C7: `normalize_event_name` is idempotent: for every input string,
applying the normalizer to its own output returns that output unchanged. -/
theorem C7_theorem (x : String) :
    normalize_event_name (normalize_event_name x) = normalize_event_name x := by
  obtain ⟨hok, hcol⟩ := normalize_chars_ok x
  set y := normalize_event_name x
  have h1 : nfkcStr y = y := by
    show String.mk (y.data.flatMap nfkcChar) = y
    rw [flatMap_id_of y.data nfkcChar (fun c hc => (hok c hc).1)]
  have h2 : replaceBrackets y = y := by
    show String.mk (y.data.map _) = y
    rw [map_id_of y.data _
      (fun c hc => if_neg (not_or.mpr ⟨(hok c hc).2.2.1, (hok c hc).2.2.2⟩))]
  have h3 : collapseWs y = y := collapseWs_of_collapsed y hcol
  have h4 : lowerStr y = y := by
    show String.mk (y.data.flatMap lowerChar) = y
    rw [flatMap_id_of y.data lowerChar (fun c hc => (hok c hc).2.1)]
  show lowerStr (collapseWs (replaceBrackets (nfkcStr y))) = y
  rw [h1, h2, h3, h4]

end TokyoDome
